import Mathlib

/-!
# showip: address compression, the temporary-address table and the record filter

A shallow embedding of `showip.c`.  C strings and byte buffers are lists of characters.
An access outside an allocation, or a read of a byte that was never written, makes the
embedded function return `none` (`Outcome.undefined` for `parse_proc`).
-/

namespace Showip

/-! ## Buffers and `reduce_v6` (showip.c, lines 19-20 and 81-137) -/

/-- The terminating byte of a C string. -/
def NUL : Char := Char.ofNat 0

/-- The constant `ADDRSIZE` (32). -/
def ADDRSIZE : Nat := 32

/-- The constant `MAXLEN` (256). -/
def MAXLEN : Nat := 256

/-- The zero-filled allocation returned by `calloc(n, 1)`. -/
def calloc (n : Nat) : List Char := List.replicate n NUL

/-- The rvalue `buf[i]`; `none` when `i` lies outside the allocation. -/
def rd (buf : List Char) (i : Nat) : Option Char := buf[i]?

/-- The assignment `buf[i] = c`; `none` when `i` lies outside the allocation. -/
def wr (buf : List Char) (i : Nat) (c : Char) : Option (List Char) :=
  if i < buf.length then some (buf.set i c) else none

/-- The C string held in `buf`: the bytes before the first `NUL`; `none` when the
buffer holds no terminator. -/
def cstring (buf : List Char) : Option (List Char) :=
  if NUL ∈ buf then some (buf.takeWhile (fun c => c ≠ NUL)) else none

/-- The local variables of `reduce_v6`.  The pointer `ende` is kept as its offset
from `ret`; it is only dereferenced when `maxZeroSeq > 0`, after it has been set. -/
structure RState where
  ret : List Char
  ende : Nat
  leading : Bool
  setter : Nat
  maxZeroSeq : Nat
  zeroSeqCount : Nat
  deriving DecidableEq

/-- The statement `ret[setter++] = c`. -/
def put (st : RState) (c : Char) : Option RState :=
  (wr st.ret st.setter c).map fun b => { st with ret := b, setter := st.setter + 1 }

/-- Lines 115-122 of the loop body: clear `leading`, reset the zero counter on a
non-zero digit, copy the digit. -/
def copyChar (c : Char) (st : RState) : Option RState :=
  put { st with leading := false,
                zeroSeqCount := if c ≠ '0' then 0 else st.zeroSeqCount } c

/-- One iteration of the `for` loop of `reduce_v6`, for `r = s % 4` and `c = addr[s]`. -/
def loopBody (r : Nat) (c : Char) (st : RState) : Option RState :=
  (if r = 0 then (put st ':').map (fun t => { t with leading := true }) else some st).bind
    fun st =>
      if st.leading = true ∧ c = '0' then
        if r ≠ 3 then
          some st
        else
          let z := st.zeroSeqCount + 1
          if z > st.maxZeroSeq then
            copyChar c { st with zeroSeqCount := z, maxZeroSeq := z, ende := st.setter + 2 }
          else
            copyChar c { st with zeroSeqCount := z }
      else copyChar c st

/-- The loop `for (s = 1; s < ADDRSIZE; s++)` of `reduce_v6`. -/
def forLoop (addr : List Char) (st : RState) : Option RState :=
  (List.range' 1 (ADDRSIZE - 1)).foldlM
    (fun st s => (rd addr s).bind fun c => loopBody (s % 4) c st) st

/-- The copy loop `for (...; *(ende-1); *(start++) = *(ende++));`.  Every iteration
reads `buf[ende]` inside the buffer and advances `ende`, so a fuel equal to the
buffer size is never used up before an access fails. -/
def squashLoop : Nat → List Char → Nat → Nat → Option (List Char)
  | 0, _, _, _ => none
  | fuel + 1, buf, start, ende =>
    (rd buf (ende - 1)).bind fun c =>
      if c ≠ NUL then
        (rd buf ende).bind fun x =>
          (wr buf start x).bind fun buf => squashLoop fuel buf (start + 1) (ende + 1)
      else some buf

/-- The block guarded by `if (maxZeroSeq > 0)`. -/
def squash (st : RState) : Option (List Char) :=
  if st.ende < st.maxZeroSeq * 2 then none
  else
    let start := st.ende - st.maxZeroSeq * 2
    (if start = 0 then (wr st.ret start ':').map (fun b => (b, start + 1))
     else some (st.ret, start)).bind fun p =>
      (wr p.1 p.2 ':').bind fun buf => squashLoop (ADDRSIZE * 2) buf (p.2 + 1) st.ende

/-- The function `reduce_v6`: the C string it returns, or `none` when it would access
memory outside `addr` or `ret`. -/
def reduce_v6 (addr : List Char) : Option (List Char) :=
  (rd addr 0).bind fun c0 =>
    let st0 : RState := ⟨calloc (ADDRSIZE * 2), 0, true, 0, 0, 0⟩
    (if c0 ≠ '0' then (put st0 c0).map (fun t => { t with leading := false })
     else some st0).bind fun st1 =>
      (forLoop addr st1).bind fun st2 =>
        (if st2.maxZeroSeq > 0 then squash st2 else some st2.ret).bind cstring

/-! ## `parse_proc` (lines 139-184) -/

/-- The C-locale `isspace` of `<ctype.h>`: space, `\t`, `\n`, `\v`, `\f`, `\r`. -/
def isspace (c : Char) : Bool :=
  c = Char.ofNat 32 ∨ c = Char.ofNat 9 ∨ c = Char.ofNat 10 ∨ c = Char.ofNat 11 ∨
    c = Char.ofNat 12 ∨ c = Char.ofNat 13

/-- The byte `lineptr[j]` after `getline` returned the line: a byte of the line or the
terminator `getline` wrote after it; `none` for a byte beyond the terminator, which
this call of `getline` did not write. -/
def lineAt (line : List Char) (j : Nat) : Option Char := (line ++ [NUL])[j]?

/-- The contents of `char addr[ADDRSIZE]`, a cell being `none` until it is assigned;
`none` when a cell that was never assigned would be read. -/
def bytes : List (Option Char) → Option (List Char)
  | [] => some []
  | none :: _ => none
  | some c :: rest => (bytes rest).map (List.cons c)

/-- The inner `for (i = 0; i < read; i++)` loop of `parse_proc` on one line, from index
`i` on, the list argument being the bytes `lineptr[i .. read-1]`.  The result is the
address buffer and the string appended to the table, if any.  The store
`addr[ADDRSIZE] = 0` goes to the byte after the array; it is not part of what
`reduce_v6` reads (indices 0 to 31) and is left out. -/
def scan (line : List Char) :
    List Char → Nat → Nat → List (Option Char) →
      Option (List (Option Char) × Option (List Char))
  | [], _, _, addr => some (addr, none)
  | c :: rest, i, token, addr =>
    if i < ADDRSIZE then scan line rest (i + 1) token (addr.set i (some c))
    else if isspace c = true then
      if token + 1 = 4 then
        (lineAt line (i + 2)).bind fun f =>
          if f ≠ '1' then some (addr, none)
          else (bytes addr).bind fun a => (reduce_v6 a).map fun r => (addr, some r)
      else scan line rest (i + 1) (token + 1) addr
    else scan line rest (i + 1) token addr

/-- The `while (getline(...) != -1)` loop of `parse_proc`: `ret` is the table so far
(`tmpNo = ret.length`); `none` when a store would fall outside the `MAXLEN` slots. -/
def readLines :
    List (List Char) → List (Option Char) → List (List Char) → Option (List (List Char))
  | [], _, ret => some ret
  | line :: rest, addr, ret =>
    (scan line line 0 0 addr).bind fun r =>
      match r.2 with
      | none => readLines rest r.1 ret
      | some a => if ret.length < MAXLEN then readLines rest r.1 (ret ++ [a]) else none

/-- How a call ends: with a value, with `exit(EXIT_FAILURE)`, or with an access the
embedding gives no value to. -/
inductive Outcome (α : Type) where
  | ok : α → Outcome α
  | exitFailure : Outcome α
  | undefined : Outcome α
  deriving DecidableEq

/-- The function `parse_proc`, given the lines of `/proc/net/if_inet6` (`none` when
`fopen` fails): the `NULL`-terminated table it returns, as the list of its strings. -/
def parse_proc (file : Option (List (List Char))) : Outcome (List (List Char)) :=
  match file with
  | none => Outcome.exitFailure
  | some lines =>
    match readLines lines (List.replicate ADDRSIZE none) [] with
    | none => Outcome.undefined
    | some ret => if ret.length < MAXLEN then Outcome.ok ret else Outcome.undefined

/-! ## The filter of `print_filtered` (lines 22-30, 187-194, 234-252) -/

/-- The bit `IPV4 = 1<<0` of `enum ARGFLAGS` (option `-4`). -/
def IPV4 : Nat := 1

/-- The bit `IPV6 = 1<<1` (option `-6`). -/
def IPV6 : Nat := 2

/-- The bit `GUA6 = 1<<2` (option `-g`). -/
def GUA6 : Nat := 4

/-- The bit `LLv6 = 1<<3` (option `-l`). -/
def LLv6 : Nat := 8

/-- The bit `ULA6 = 1<<4` (option `-u`). -/
def ULA6 : Nat := 16

/-- The bit `TMP6 = 1<<5` (option `-t`). -/
def TMP6 : Nat := 32

/-- The bit `NTMP = 1<<6` (option `-T`). -/
def NTMP : Nat := 64

/-- The address families `print_filtered` recognises: `AF_INET` and `AF_INET6`. -/
inductive Family where
  | inet : Family
  | inet6 : Family
  deriving DecidableEq

/-- The function `containsAddr`; `strcmp(needle, h) == 0` is equality of the strings. -/
def containsAddr (needle : List Char) : List (List Char) → Bool
  | [] => false
  | h :: haystack => if needle = h then true else containsAddr needle haystack

/-- The test `strncmp(host, p, p.length) == 0`. -/
def startsWith (host p : List Char) : Bool := host.take p.length = p

/-- Lines 234-252 of `print_filtered`: whether the record with textual address `host`
and family `family` is printed, for the option word `flags` and the table `tmps`. -/
def printed (flags : Nat) (family : Family) (host : List Char) (tmps : List (List Char)) :
    Bool :=
  if (flags &&& NTMP ≠ 0) ∧ containsAddr host tmps = true then false
  else
    decide (flags = 0 ∨ flags = NTMP ∨
      (flags &&& IPV4 ≠ 0 ∧ family = Family.inet) ∨
      (flags &&& IPV6 ≠ 0 ∧ family = Family.inet6) ∨
      (flags &&& LLv6 ≠ 0 ∧ startsWith host ['f', 'e', '8', '0'] = true) ∨
      (flags &&& TMP6 ≠ 0 ∧ containsAddr host tmps = true) ∨
      (flags &&& ULA6 ≠ 0 ∧ startsWith host ['f', 'd'] = true) ∨
      (flags &&& IPV6 ≠ 0 ∧ family = Family.inet6) ∨
      (flags &&& GUA6 ≠ 0 ∧ (host.head? = some '2' ∨ host.head? = some '3')))

/-! ## `parse_flags` (lines 32-79) -/

/-- The structure `struct opts`: the option word and the interface name (empty when no
name was given). -/
structure opts where
  flags : Nat
  interface : List Char
  deriving DecidableEq

/-- The `switch` of `parse_flags`: the bit of an option character; `none` is the
`default` case, which calls `usage()`. -/
def flagBit (ch : Char) : Option Nat :=
  if ch = '4' then some IPV4
  else if ch = '6' then some IPV6
  else if ch = 'g' then some GUA6
  else if ch = 'l' then some LLv6
  else if ch = 't' then some TMP6
  else if ch = 'T' then some NTMP
  else if ch = 'u' then some ULA6
  else none

/-- The inner loop `for (ch = argv[i]+1; *ch; ch++)` of `parse_flags`; `none` when
`usage()` is reached. -/
def parse_chars : List Char → Nat → Option Nat
  | [], flags => some flags
  | ch :: rest, flags =>
    match flagBit ch with
    | some b => parse_chars rest (flags ||| b)
    | none => none

/-- The loop `for (i = 1; i < argc; i++)` of `parse_flags` over the arguments
`argv[i], ...`.  `usage()` ends the run with `exit(EXIT_FAILURE)`; an argument without a
leading dash is copied, cut to 255 bytes, into `interface`. -/
def parse_args : List (List Char) → opts → Outcome opts
  | [], options => Outcome.ok options
  | arg :: rest, options =>
    if arg.head? = some '-' then
      match parse_chars arg.tail options.flags with
      | none => Outcome.exitFailure
      | some f => parse_args rest ⟨f, options.interface⟩
    else parse_args rest ⟨options.flags, arg.take 255⟩

/-- The function `parse_flags` on the argument vector `argv` (`argc = argv.length`). -/
def parse_flags (argv : List (List Char)) : Outcome opts :=
  if argv.length < 2 then Outcome.ok ⟨0, []⟩ else parse_args (argv.drop 1) ⟨0, []⟩

/-! ## `print_filtered` (lines 196-260) -/

/-- The bit `IFF_LOOPBACK` of `<net/if.h>`. -/
def IFF_LOOPBACK : Nat := 8

/-- What `getnameinfo(..., NI_NUMERICHOST)` gives for an address: the numeric host text,
or an error with the text of `gai_strerror`. -/
inductive NameInfo where
  | host : List Char → NameInfo
  | failed : List Char → NameInfo

/-- An address `ifa_addr` as `print_filtered` uses it: its `sa_family` (`none` when it is
neither `AF_INET` nor `AF_INET6`) and what `getnameinfo` gives for it. -/
structure sockaddr where
  sa_family : Option Family
  nameinfo : NameInfo

/-- A node of the list of `getifaddrs`: name, flags and address (`none` for `NULL`). -/
structure ifaddrs where
  ifa_name : List Char
  ifa_flags : Nat
  ifa_addr : Option sockaddr

/-- The test `strncmp(a, b, n) == 0` on strings without an inner `NUL`. -/
def strncmpEq (a b : List Char) (n : Nat) : Bool := (a ++ [NUL]).take n = (b ++ [NUL]).take n

/-- Lines 211-218: whether a node is passed over before its family is looked at. -/
def passedOver (ifa : ifaddrs) (options : opts) : Bool :=
  ifa.ifa_addr.isNone || decide (ifa.ifa_flags &&& IFF_LOOPBACK ≠ 0) ||
    strncmpEq ifa.ifa_name ['l', 'o'] 3 ||
    (decide (options.interface ≠ []) && !strncmpEq ifa.ifa_name options.interface 256)

/-- The loop of `print_filtered` over the list: the lines written to standard output and
how the loop ends.  A failure of `getnameinfo` writes its message and ends the run with
`exit(EXIT_FAILURE)`.  `tmps` is the table; where it is `NULL` in the source (neither
`TMP6` nor `NTMP` set) it is never looked at and the empty table stands for it. -/
def printLoop (options : opts) (tmps : List (List Char)) :
    List ifaddrs → List (List Char) × Outcome Unit
  | [] => ([], Outcome.ok ())
  | ifa :: rest =>
    if passedOver ifa options = true then printLoop options tmps rest
    else
      match ifa.ifa_addr with
      | none => printLoop options tmps rest
      | some sa =>
        match sa.sa_family with
        | none => printLoop options tmps rest
        | some family =>
          match sa.nameinfo with
          | NameInfo.failed msg => (["getnameinfo() failed: ".toList ++ msg], Outcome.exitFailure)
          | NameInfo.host h =>
            if printed options.flags family h tmps = true then
              (h :: (printLoop options tmps rest).1, (printLoop options tmps rest).2)
            else printLoop options tmps rest

/-- Lines 201-205: the pointer `tmps`, `none` for `NULL`; `parse_proc` is called only
when `TMP6` or `NTMP` is set. -/
def lazyTable (file : Option (List (List Char))) (flags : Nat) :
    Option (Outcome (List (List Char))) :=
  if flags &&& TMP6 ≠ 0 ∨ flags &&& NTMP ≠ 0 then some (parse_proc file) else none

/-- The function `print_filtered`: the lines written to standard output and how the call
ends, given the kernel table (`none` when it cannot be opened), the list of `getifaddrs`
and the options. -/
def print_filtered (file : Option (List (List Char))) (ifa : List ifaddrs) (options : opts) :
    List (List Char) × Outcome Unit :=
  match lazyTable file options.flags with
  | none => printLoop options [] ifa
  | some (Outcome.ok tmps) => printLoop options tmps ifa
  | some Outcome.exitFailure => ([], Outcome.exitFailure)
  | some Outcome.undefined => ([], Outcome.undefined)

/-! ## Notions of the spec -/

/-- The hexadecimal digits of the kernel table: `0`-`9`, `a`-`f`. -/
def hexDigits : List Char := "0123456789abcdef".toList

/-- A character of `RawAddressDigits`: a hexadecimal digit in lower case. -/
def isHexDigit (c : Char) : Bool := hexDigits.contains c

/-- The groups of four digits of an address, in order. -/
def quartets : List Char → List (List Char)
  | a :: b :: c :: e :: rest => [a, b, c, e] :: quartets rest
  | _ => []

/-- A group whose digits are all `0`. -/
def isZeroGroup (g : List Char) : Bool := g.all (fun c => c = '0')

/-- A group without its leading zeros; a group of zeros keeps one `0`. -/
def stripZeros (g : List Char) : List Char :=
  if g.dropWhile (fun c => c = '0') = [] then ['0'] else g.dropWhile (fun c => c = '0')

/-- Groups joined with `:` between neighbours. -/
def joinColon : List (List Char) → List Char
  | [] => []
  | [g] => g
  | g :: h :: gs => g ++ ':' :: joinColon (h :: gs)

/-- The number of consecutive zero groups starting at group `i`. -/
def zeroRunFrom (zs : List Bool) (i : Nat) : Nat := ((zs.drop i).takeWhile id).length

/-- The length of a longest run of zero groups (0 when there is no zero group). -/
def longestRun (zs : List Bool) : Nat :=
  ((List.range zs.length).map (zeroRunFrom zs)).foldl max 0

/-- The index of the first group at which a run of the longest length starts. -/
def firstLongest (zs : List Bool) : Nat :=
  ((List.range zs.length).find? fun i => zeroRunFrom zs i = longestRun zs).getD 0

/-- The text in which the groups `i .. i+n-1` of `ss` are replaced by one `::`. -/
def elide (ss : List (List Char)) (i n : Nat) : List Char :=
  joinColon (ss.take i) ++ ':' :: ':' :: joinColon (ss.drop (i + n))

/-- The two-pass reference design of the spec: split into groups of four, strip the
leading zeros of each group, find the first longest run of zero groups and, if it has
at least one group, replace it by `::`. -/
def twoPass (d : List Char) : List Char :=
  let zs := (quartets d).map isZeroGroup
  let ss := (quartets d).map stripZeros
  if 1 ≤ longestRun zs then elide ss (firstLongest zs) (longestRun zs) else joinColon ss

/-- The zero flags of the eight groups of an address. -/
def zeroFlags (d : List Char) : List Bool := (quartets d).map isZeroGroup

/-- The groups of an address with their leading zeros stripped. -/
def stripped (d : List Char) : List (List Char) := (quartets d).map stripZeros

/-- Whether a text contains three consecutive colons. -/
def hasTripleColon : List Char → Bool
  | a :: b :: c :: rest =>
    (a = ':' ∧ b = ':' ∧ c = ':') || hasTripleColon (b :: c :: rest)
  | _ => false

/-- Whether a text ends with two colons. -/
def endsWithDoubleColon (t : List Char) : Bool := t.reverse.take 2 = [':', ':']

/-- The fields of a text between its colons. -/
def splitColon : List Char → List (List Char)
  | [] => [[]]
  | c :: cs =>
    if c = ':' then [] :: splitColon cs
    else
      match splitColon cs with
      | [] => [[c]]
      | g :: gs => (c :: g) :: gs

/-- The text before and after the first `::`, when there is one. -/
def splitDouble : List Char → Option (List Char × List Char)
  | [] => none
  | a :: rest =>
    match rest with
    | [] => none
    | b :: rest2 =>
      if a = ':' ∧ b = ':' then some ([], rest2)
      else (splitDouble rest).map fun p => (a :: p.1, p.2)

/-- The groups of one side of `::`; an empty side has no group. -/
def groupsOf (t : List Char) : List (List Char) := if t = [] then [] else splitColon t

/-- A group of a compressed address: one to four hexadecimal digits. -/
def validGroup (g : List Char) : Bool :=
  decide (1 ≤ g.length) && decide (g.length ≤ 4) && g.all isHexDigit

/-- A group padded on the left to four digits. -/
def pad4 (g : List Char) : List Char := List.replicate (4 - g.length) '0' ++ g

/-- The re-expansion of the spec (section 8): the groups elided by `::` are restored as
zero groups so that there are eight groups, and every group is padded to four digits.
A text that is not made of groups of one to four digits with at most one `::` has no
expansion. -/
def expand_v6 (s : List Char) : Option (List Char) :=
  match splitDouble s with
  | none =>
    if (splitColon s).length = 8 ∧ (splitColon s).all validGroup = true then
      some ((splitColon s).map pad4).flatten
    else none
  | some (l, r) =>
    if (groupsOf l).length + (groupsOf r).length ≤ 7 ∧
        (groupsOf l ++ groupsOf r).all validGroup = true then
      some (((groupsOf l).map pad4).flatten ++
        (List.replicate (8 - ((groupsOf l).length + (groupsOf r).length))
          ['0', '0', '0', '0']).flatten ++ ((groupsOf r).map pad4).flatten)
    else none

/-- The tokens of a line: what lies between its runs of whitespace. -/
def tokens (line : List Char) : List (List Char) :=
  (line.splitOnP isspace).filter fun t => t ≠ []

/-- The number of hexadecimal digits a line starts with. -/
def leadingHex (line : List Char) : Nat := (line.takeWhile isHexDigit).length

/-- A malformed table line in the words of the spec: fewer than 32 leading
hexadecimal characters, or fewer than 4 tokens. -/
def malformed (line : List Char) : Bool :=
  decide (leadingHex line < 32) || decide ((tokens line).length < 4)

/-- The index of the `(n+1)`-th whitespace character of `rest`, the first character of
`rest` having index `i`. -/
def nthSpace : List Char → Nat → Nat → Option Nat
  | [], _, _ => none
  | c :: rest, n, i =>
    if isspace c = true then
      if n = 0 then some i else nthSpace rest (n - 1) (i + 1)
    else nthSpace rest n (i + 1)

/-- The index of the fourth whitespace character after the first `ADDRSIZE` characters
of a line. -/
def fourthSpace (line : List Char) : Option Nat := nthSpace (line.drop ADDRSIZE) 3 ADDRSIZE

/-- The `CriteriaSet` of the spec without the interface name: seven switches. -/
structure CriteriaSet where
  wantIPv4 : Bool
  wantIPv6 : Bool
  wantGUA : Bool
  wantLinkLocal : Bool
  wantULA : Bool
  wantTemporaryOnly : Bool
  wantExcludeTemporary : Bool
  deriving DecidableEq

/-- The option word of a criteria set: the bitwise or of the bits of its switches. -/
def flagWord (c : CriteriaSet) : Nat :=
  (if c.wantIPv4 = true then IPV4 else 0) ||| (if c.wantIPv6 = true then IPV6 else 0) |||
    (if c.wantGUA = true then GUA6 else 0) ||| (if c.wantLinkLocal = true then LLv6 else 0) |||
    (if c.wantULA = true then ULA6 else 0) ||| (if c.wantTemporaryOnly = true then TMP6 else 0) |||
    (if c.wantExcludeTemporary = true then NTMP else 0)

/-- The option characters of an argument vector: what follows the dash in the arguments
after the first that begin with a dash. -/
def flagChars (argv : List (List Char)) : List Char :=
  (((argv.drop 1).filter fun arg => arg.head? = some '-').map List.tail).flatten

/-- The criteria set named by a list of option characters. -/
def criteriaOf (cs : List Char) : CriteriaSet :=
  ⟨cs.contains '4', cs.contains '6', cs.contains 'g', cs.contains 'l', cs.contains 'u',
    cs.contains 't', cs.contains 'T'⟩

/-- The textual address of a node that has an address, is not flagged loopback, is not
named `lo` and has family IPv4 or IPv6. -/
def eligibleHost (ifa : ifaddrs) : Option (List Char) :=
  match ifa.ifa_addr with
  | none => none
  | some sa =>
    if ifa.ifa_flags &&& IFF_LOOPBACK ≠ 0 ∨ ifa.ifa_name = ['l', 'o'] ∨ sa.sa_family = none then none
    else
      match sa.nameinfo with
      | NameInfo.host h => some h
      | NameInfo.failed _ => none

/-- No switch of the criteria set is on. -/
def noCriterion (c : CriteriaSet) : Bool :=
  !c.wantIPv4 && !c.wantIPv6 && !c.wantGUA && !c.wantLinkLocal && !c.wantULA &&
    !c.wantTemporaryOnly && !c.wantExcludeTemporary

/-- The switch `wantExcludeTemporary` is the only one that is on. -/
def onlyExcludeTemporary (c : CriteriaSet) : Bool :=
  !c.wantIPv4 && !c.wantIPv6 && !c.wantGUA && !c.wantLinkLocal && !c.wantULA &&
    !c.wantTemporaryOnly && c.wantExcludeTemporary

/-! ## Definitions used in the proofs -/

/-- The buffer of `reduce_v6` while it holds the text `w`: the rest is still zero. -/
def bufOf (w : List Char) : List Char := w ++ List.replicate (64 - w.length) NUL

/-- The variables of `reduce_v6` other than the buffer, with the text written so far. -/
structure AState where
  w : List Char
  en : Nat
  l : Bool
  m : Nat
  z : Nat

/-- The concrete state an abstract state stands for. -/
def AState.conc (A : AState) : RState := ⟨bufOf A.w, A.en, A.l, A.w.length, A.m, A.z⟩

/-- The copy of one digit (`copyChar`) on abstract states. -/
def absCopy (c : Char) (A : AState) : AState :=
  ⟨A.w ++ [c], A.en, false, A.m, if c ≠ '0' then 0 else A.z⟩

/-- The loop body on abstract states. -/
def absBody (r : Nat) (c : Char) (A : AState) : AState :=
  let A1 : AState := if r = 0 then ⟨A.w ++ [':'], A.en, true, A.m, A.z⟩ else A
  if A1.l = true ∧ c = '0' then
    if r ≠ 3 then A1
    else if A1.z + 1 > A1.m then absCopy c ⟨A1.w, A1.w.length + 2, A1.l, A1.z + 1, A1.z + 1⟩
    else absCopy c ⟨A1.w, A1.en, A1.l, A1.m, A1.z + 1⟩
  else absCopy c A1

/-- The four iterations of one group after the first, on abstract states. -/
def absGroup (a b c e : Char) (A : AState) : AState :=
  absBody 3 e (absBody 2 c (absBody 1 b (absBody 0 a A)))

/-- Four consecutive iterations of the loop body, for one group after the first. -/
def groupRun (a b c e : Char) (st : RState) : Option RState :=
  (loopBody 0 a st).bind fun s => (loopBody 1 b s).bind fun s =>
    (loopBody 2 c s).bind fun s => loopBody 3 e s

/-- The state after the special case of the first digit. -/
def absFirst (a : Char) : AState :=
  if a ≠ '0' then ⟨[a], 0, false, 0, 0⟩ else ⟨[], 0, true, 0, 0⟩

/-- The special case of the first digit and the three iterations of the first group, on
abstract states. -/
def absFirstGroup (a b c e : Char) : AState :=
  absBody 3 e (absBody 2 c (absBody 1 b (absFirst a)))

/-- The run bookkeeping of the loop, per group: groups seen, index of the group after
the recorded run, `maxZeroSeq`, `zeroSeqCount`. -/
structure Trk where
  k : Nat
  g : Nat
  m : Nat
  z : Nat

/-- The run bookkeeping for one more group, `f` telling whether it is a zero group. -/
def trkStep (t : Trk) (f : Bool) : Trk :=
  if f = true ∧ t.z + 1 > t.m then ⟨t.k + 1, t.k + 1, t.z + 1, t.z + 1⟩
  else ⟨t.k + 1, t.g, t.m, if f = true then t.z + 1 else 0⟩

/-- The run bookkeeping after the groups with zero flags `fs`. -/
def trk (fs : List Bool) : Trk := fs.foldl trkStep ⟨0, 0, 0, 0⟩

/-- The offset at which the group after `ss` starts. -/
def offs (ss : List (List Char)) : Nat := (ss.map fun s => s.length + 1).sum

/-- The state of the loop after the groups `gs`. -/
def absOf (gs : List (List Char)) : AState :=
  ⟨joinColon (gs.map stripZeros),
   offs ((gs.map stripZeros).take (trk (gs.map isZeroGroup)).g), false,
   (trk (gs.map isZeroGroup)).m, (trk (gs.map isZeroGroup)).z⟩

/-- The iterations of one group, given as a list of four digits. -/
def groupRunL : List Char → RState → Option RState
  | [a, b, c, e], st => groupRun a b c e st
  | _, _ => none

/-- The iterations of a list of groups. -/
def runGroups : List (List Char) → RState → Option RState
  | [], st => some st
  | q :: qs, st => (groupRunL q st).bind (runGroups qs)

/-- The text `:0:0...` of `n` zero groups, each preceded by its colon. -/
def colonZeros : Nat → List Char
  | 0 => []
  | n + 1 => ':' :: '0' :: colonZeros n

/-- All lists of `n` booleans. -/
def boolLists : Nat → List (List Bool)
  | 0 => [[]]
  | n + 1 => (boolLists n).map (List.cons true) ++ (boolLists n).map (List.cons false)

/-- The check that `trk` records the first longest run of `fs`. -/
def trkOk (fs : List Bool) : Bool :=
  (trk fs).m == longestRun fs &&
    ((trk fs).m == 0 ||
      ((trk fs).g == firstLongest fs + longestRun fs &&
        (fs.drop (firstLongest fs)).take (longestRun fs)
          == List.replicate (longestRun fs) true))

/-- The text `reduce_v6` returns for the stripped groups `ss` whose first longest run of
zero groups starts at group `i` and has `n` groups.  A run that reaches the last group
keeps all its groups but the first. -/
def codeText (ss : List (List Char)) (i n : Nat) : List Char :=
  if n = 0 then joinColon ss
  else if i + n < ss.length then elide ss i n
  else if i = 0 then ':' :: ':' :: (colonZeros (n - 1)).drop 1
  else joinColon (ss.take i) ++ ':' :: ':' :: colonZeros (n - 1)

/-- The decision taken at the fourth whitespace character, found at index `j`, `a`
being the contents of the address buffer. -/
def flagEntry (line : List Char) (a : Option (List Char)) (j : Nat) :
    Option (Option (List Char)) :=
  (lineAt line (j + 2)).bind fun f =>
    if f ≠ '1' then some none else (a.bind reduce_v6).map some

/-- What a line adds to the table: nothing (`some none`), one string, or no defined
result (`none`). -/
def entryOf (line : List Char) : Option (Option (List Char)) :=
  match fourthSpace line with
  | none => some none
  | some j => flagEntry line (some (line.take ADDRSIZE)) j

/-- The table loop in terms of `entryOf`. -/
def foldEntries : List (List Char) → List (List Char) → Option (List (List Char))
  | [], ret => some ret
  | l :: ls, ret =>
    (entryOf l).bind fun e =>
      match e with
      | none => foldEntries ls ret
      | some a => if ret.length < MAXLEN then foldEntries ls (ret ++ [a]) else none

/-- The check that the first longest run of `fs` is the earliest run of that length and
that a later run of the same length leaves it short of the last group. -/
def tieOk (fs : List Bool) : Bool :=
  decide (zeroRunFrom fs (firstLongest fs) = longestRun fs) &&
    (List.range (firstLongest fs)).all (fun k => decide (zeroRunFrom fs k < longestRun fs)) &&
    (List.range fs.length).all (fun j =>
      !(decide (firstLongest fs < j) && decide (zeroRunFrom fs j = longestRun fs)
          && decide (0 < longestRun fs))
        || decide (firstLongest fs + longestRun fs < fs.length))

/-- A group without a colon. -/
def colonFree (g : List Char) : Bool := g.all (fun c => c ≠ ':')

/-- A text without two colons in a row that does not end with a colon. -/
def clean : List Char → Bool
  | [] => true
  | [a] => a ≠ ':'
  | a :: b :: t => !(decide (a = ':') && decide (b = ':')) && clean (b :: t)

/-- The criteria set with the switch of the option character `ch` turned on. -/
def addFlag (c : CriteriaSet) (ch : Char) : CriteriaSet :=
  ⟨c.wantIPv4 || decide (ch = '4'), c.wantIPv6 || decide (ch = '6'),
    c.wantGUA || decide (ch = 'g'), c.wantLinkLocal || decide (ch = 'l'),
    c.wantULA || decide (ch = 'u'), c.wantTemporaryOnly || decide (ch = 't'),
    c.wantExcludeTemporary || decide (ch = 'T')⟩

/-- The option characters of a list of arguments: what follows the dash in those that
begin with a dash. -/
def dashChars (args : List (List Char)) : List Char :=
  ((args.filter fun arg => arg.head? = some '-').map List.tail).flatten

/-- The check that, when `fs` has exactly one zero group, the first longest run is that
group alone. -/
def loneOk (fs : List Bool) : Bool :=
  !(fs.count true == 1) ||
    (List.range fs.length).all fun k =>
      !(fs[k]? == some true) || (firstLongest fs == k && longestRun fs == 1)

/-! ## The loop of `reduce_v6`, digit by digit -/

theorem wr_bufOf (w : List Char) (c : Char) (h : w.length < 64) :
    wr (bufOf w) w.length c = some (bufOf (w ++ [c])) := by
  unfold wr bufOf
  have h1 : 64 - w.length = (64 - (w.length + 1)) + 1 := by omega
  rw [h1, List.replicate_succ]
  simp [List.set_append]

theorem put_conc (A : AState) (c : Char) (h : A.w.length < 64) :
    put A.conc c = some (AState.conc ⟨A.w ++ [c], A.en, A.l, A.m, A.z⟩) := by
  simp [put, AState.conc, wr_bufOf A.w c h]

theorem copyChar_conc (A : AState) (c : Char) (h : A.w.length < 64) :
    copyChar c A.conc = some (absCopy c A).conc := by
  have := put_conc ⟨A.w, A.en, false, A.m, if c ≠ '0' then 0 else A.z⟩ c h
  simpa [copyChar, absCopy, AState.conc] using this

theorem absBody_length (r : Nat) (c : Char) (A : AState) :
    (absBody r c A).w.length ≤ A.w.length + 2 := by
  unfold absBody absCopy
  by_cases hr : r = 0 <;> by_cases hl : A.l = true <;> by_cases hc : c = '0' <;>
    by_cases h3 : r = 3 <;> by_cases hz : A.z + 1 > A.m <;> simp [hr, hl, hc, h3, hz]

theorem loopBody_conc (r : Nat) (c : Char) (A : AState) (h : A.w.length + 2 ≤ 64) :
    loopBody r c A.conc = some (absBody r c A).conc := by
  unfold loopBody absBody
  by_cases hr : r = 0
  · have hp := put_conc A ':' (by omega)
    have hlen : (A.w ++ [':']).length < 64 := by simp; omega
    simp only [hr, if_true, hp, Option.map_some', Option.some_bind]
    by_cases hc : c = '0'
    · simp [hc, AState.conc]
    · have := copyChar_conc ⟨A.w ++ [':'], A.en, true, A.m, A.z⟩ c hlen
      simpa [hc, AState.conc] using this
  · have hlen : A.w.length < 64 := by omega
    have e1 : A.conc.leading = A.l := rfl
    have e2 : A.conc.zeroSeqCount = A.z := rfl
    have e3 : A.conc.maxZeroSeq = A.m := rfl
    have e4 : A.conc.setter = A.w.length := rfl
    have e5 : A.conc.ret = bufOf A.w := rfl
    have e6 : A.conc.ende = A.en := rfl
    simp only [hr, if_false, Option.some_bind, e1, e2, e3, e4, e5, e6]
    by_cases hlc : A.l = true ∧ c = '0'
    · by_cases h3 : r = 3
      · by_cases hz : A.z + 1 > A.m
        · simpa [hlc, h3, hz, AState.conc] using
            copyChar_conc ⟨A.w, A.w.length + 2, A.l, A.z + 1, A.z + 1⟩ c hlen
        · simpa [hlc, h3, hz, AState.conc] using
            copyChar_conc ⟨A.w, A.en, A.l, A.m, A.z + 1⟩ c hlen
      · simp [hlc, h3]
    · simpa [hlc] using copyChar_conc A c hlen

/-! ## The loop of `reduce_v6`, group by group -/

theorem absGroup_eq (a b c e : Char) (A : AState) :
    absGroup a b c e A =
      ⟨A.w ++ ':' :: stripZeros [a, b, c, e],
       if isZeroGroup [a, b, c, e] = true ∧ A.z + 1 > A.m then A.w.length + 3 else A.en,
       false,
       if isZeroGroup [a, b, c, e] = true ∧ A.z + 1 > A.m then A.z + 1 else A.m,
       if isZeroGroup [a, b, c, e] = true then A.z + 1 else 0⟩ := by
  by_cases ha : a = '0' <;> by_cases hb : b = '0' <;> by_cases hc : c = '0' <;>
    by_cases he : e = '0' <;> by_cases hz : A.z + 1 > A.m <;>
    simp [absGroup, absBody, absCopy, stripZeros, isZeroGroup, ha, hb, hc, he, hz]

theorem absGroup_length (a b c e : Char) (A : AState) :
    (absGroup a b c e A).w.length ≤ A.w.length + 5 := by
  by_cases ha : a = '0' <;> by_cases hb : b = '0' <;> by_cases hc : c = '0' <;>
    by_cases he : e = '0' <;>
    simp [absGroup_eq, stripZeros, ha, hb, hc, he]

theorem absBody_length_succ (r : Nat) (c : Char) (A : AState) (hr : r ≠ 0) :
    (absBody r c A).w.length ≤ A.w.length + 1 := by
  unfold absBody absCopy
  by_cases hl : A.l = true <;> by_cases hc : c = '0' <;>
    by_cases h3 : r = 3 <;> by_cases hz : A.z + 1 > A.m <;> simp [hr, hl, hc, h3, hz]

theorem groupRun_conc (a b c e : Char) (A : AState) (h : A.w.length + 6 ≤ 64) :
    groupRun a b c e A.conc = some (absGroup a b c e A).conc := by
  have l1 := absBody_length 0 a A
  have l2 := absBody_length_succ 1 b (absBody 0 a A) (by decide)
  have l3 := absBody_length_succ 2 c (absBody 1 b (absBody 0 a A)) (by decide)
  unfold groupRun absGroup
  rw [loopBody_conc 0 a A (by omega)]
  simp only [Option.some_bind]
  rw [loopBody_conc 1 b _ (by omega)]
  simp only [Option.some_bind]
  rw [loopBody_conc 2 c _ (by omega)]
  simp only [Option.some_bind]
  rw [loopBody_conc 3 e _ (by omega)]

theorem first_conc (a : Char) :
    (if a ≠ '0' then
        (put ⟨calloc (ADDRSIZE * 2), 0, true, 0, 0, 0⟩ a).map
          (fun t => { t with leading := false })
      else some ⟨calloc (ADDRSIZE * 2), 0, true, 0, 0, 0⟩) = some (absFirst a).conc := by
  have h0 : (⟨calloc (ADDRSIZE * 2), 0, true, 0, 0, 0⟩ : RState)
      = AState.conc ⟨[], 0, true, 0, 0⟩ := rfl
  rw [h0]
  by_cases ha : a = '0'
  · simp [ha, absFirst]
  · have := put_conc ⟨[], 0, true, 0, 0⟩ a (by simp)
    rw [if_pos ha, this]
    simp [ha, absFirst, AState.conc]

theorem absFirstGroup_eq (a b c e : Char) :
    absFirstGroup a b c e =
      ⟨stripZeros [a, b, c, e], if isZeroGroup [a, b, c, e] = true then 2 else 0, false,
       if isZeroGroup [a, b, c, e] = true then 1 else 0,
       if isZeroGroup [a, b, c, e] = true then 1 else 0⟩ := by
  by_cases ha : a = '0' <;> by_cases hb : b = '0' <;> by_cases hc : c = '0' <;>
    by_cases he : e = '0' <;>
    simp [absFirstGroup, absFirst, absBody, absCopy, stripZeros, isZeroGroup, ha, hb, hc, he]

theorem firstRun_conc (a b c e : Char) :
    ((loopBody 1 b (absFirst a).conc).bind fun s => (loopBody 2 c s).bind fun s =>
      loopBody 3 e s) = some (absFirstGroup a b c e).conc := by
  have l0 : (absFirst a).w.length ≤ 1 := by
    unfold absFirst; split <;> simp
  have l1 := absBody_length 1 b (absFirst a)
  have l2 := absBody_length 2 c (absBody 1 b (absFirst a))
  unfold absFirstGroup
  rw [loopBody_conc 1 b _ (by omega)]
  simp only [Option.some_bind]
  rw [loopBody_conc 2 c _ (by omega)]
  simp only [Option.some_bind]
  rw [loopBody_conc 3 e _ (by omega)]

theorem foldl_trkStep_k (fs : List Bool) (t : Trk) :
    (fs.foldl trkStep t).k = t.k + fs.length := by
  induction fs generalizing t with
  | nil => simp
  | cons f fs ih =>
    simp only [List.foldl_cons, ih, List.length_cons]
    unfold trkStep
    split <;> (simp; omega)

theorem foldl_trkStep_g (fs : List Bool) (t : Trk) (h : t.g ≤ t.k) :
    (fs.foldl trkStep t).g ≤ t.k + fs.length := by
  induction fs generalizing t with
  | nil => simpa using h
  | cons f fs ih =>
    simp only [List.foldl_cons, List.length_cons]
    have : (trkStep t f).g ≤ (trkStep t f).k := by
      unfold trkStep
      split
      · simp
      · simp only
        omega
    have hk : (trkStep t f).k = t.k + 1 := by
      unfold trkStep; split <;> simp
    have := ih (trkStep t f) this
    omega

theorem trk_k (fs : List Bool) : (trk fs).k = fs.length := by
  simp [trk, foldl_trkStep_k]

theorem trk_g (fs : List Bool) : (trk fs).g ≤ fs.length := by
  have := foldl_trkStep_g fs ⟨0, 0, 0, 0⟩ (by simp)
  simpa [trk] using this

theorem trk_snoc (fs : List Bool) (f : Bool) : trk (fs ++ [f]) = trkStep (trk fs) f := by
  simp [trk, List.foldl_append]

theorem joinColon_snoc (ss : List (List Char)) (s : List Char) (h : ss ≠ []) :
    joinColon (ss ++ [s]) = joinColon ss ++ ':' :: s := by
  induction ss with
  | nil => exact absurd rfl h
  | cons a t ih =>
    cases t with
    | nil => simp [joinColon]
    | cons b t => 
      have := ih (by simp)
      simp only [List.cons_append, joinColon] at this ⊢
      simp [this]

theorem offs_snoc (ss : List (List Char)) (s : List Char) :
    offs (ss ++ [s]) = offs ss + (s.length + 1) := by
  simp [offs]

theorem length_joinColon (ss : List (List Char)) (h : ss ≠ []) :
    (joinColon ss).length + 1 = offs ss := by
  induction ss with
  | nil => exact absurd rfl h
  | cons a t ih =>
    cases t with
    | nil => simp [joinColon, offs]
    | cons b t =>
      have := ih (by simp)
      simp only [joinColon, offs, List.map_cons, List.sum_cons, List.length_append,
        List.length_cons] at this ⊢
      omega

theorem stripZeros_zero (a b c e : Char) (h : isZeroGroup [a, b, c, e] = true) :
    stripZeros [a, b, c, e] = ['0'] := by
  simp [isZeroGroup] at h
  obtain ⟨rfl, rfl, rfl, rfl⟩ := h
  simp [stripZeros]

theorem absGroup_absOf (a b c e : Char) (gs : List (List Char)) (h : gs ≠ []) :
    absGroup a b c e (absOf gs) = absOf (gs ++ [[a, b, c, e]]) := by
  have hss : gs.map stripZeros ≠ [] := by simpa using h
  have hlen := length_joinColon _ hss
  have hg := trk_g (gs.map isZeroGroup)
  have hk := trk_k (gs.map isZeroGroup)
  simp only [List.length_map] at hg hk
  rw [absGroup_eq]
  simp only [absOf, List.map_append, List.map_cons, List.map_nil, trk_snoc,
    joinColon_snoc _ _ hss]
  by_cases hz : isZeroGroup [a, b, c, e] = true
  · have hs := stripZeros_zero a b c e hz
    by_cases hm : (trk (gs.map isZeroGroup)).z + 1 > (trk (gs.map isZeroGroup)).m
    · simp [trkStep, hz, hm, hk, hs]
      have : (gs.map stripZeros ++ [['0']]).take (gs.length + 1)
          = gs.map stripZeros ++ [['0']] := by
        apply List.take_of_length_le; simp
      have h2 : offs (List.take (gs.length + 1) (List.map stripZeros gs ++ [['0']]))
          = offs (gs.map stripZeros) + 2 := by
        rw [this, offs_snoc]; rfl
      omega
    · simp [trkStep, hz, hm, hs]
      rw [List.take_append_of_le_length (by simpa using hg)]
  · simp [trkStep, hz]
    rw [List.take_append_of_le_length (by simpa using hg)]

theorem absFirstGroup_absOf (a b c e : Char) :
    absFirstGroup a b c e = absOf [[a, b, c, e]] := by
  rw [absFirstGroup_eq]
  by_cases hz : isZeroGroup [a, b, c, e] = true
  · have hs := stripZeros_zero a b c e hz
    simp [absOf, trk, trkStep, hz, hs, joinColon, offs]
  · simp [absOf, trk, trkStep, hz, joinColon, offs]

theorem length_stripZeros_le (g : List Char) : (stripZeros g).length ≤ max 1 g.length := by
  unfold stripZeros
  split
  · simp
  · exact le_trans (List.Sublist.length_le (List.dropWhile_sublist _)) (le_max_right _ _)

theorem offs_strip_le (gs : List (List Char)) (h : ∀ q ∈ gs, q.length = 4) :
    offs (gs.map stripZeros) ≤ 5 * gs.length := by
  induction gs with
  | nil => simp [offs]
  | cons q qs ih =>
    have h1 := length_stripZeros_le q
    have h2 : q.length = 4 := h q (by simp)
    have h3 := ih (fun x hx => h x (by simp [hx]))
    rw [h2] at h1
    simp only [offs, List.map_cons, List.sum_cons, List.length_cons] at h3 ⊢
    have : max 1 4 = 4 := by decide
    omega

theorem runGroups_absOf (qs done : List (List Char)) (hd : done ≠ [])
    (h1 : ∀ q ∈ done, q.length = 4) (h2 : ∀ q ∈ qs, q.length = 4)
    (hlen : done.length + qs.length ≤ 8) :
    runGroups qs (absOf done).conc = some (absOf (done ++ qs)).conc := by
  induction qs generalizing done with
  | nil => simp [runGroups]
  | cons q qs ih =>
    have hq : q.length = 4 := h2 q (by simp)
    obtain ⟨a, b, c, e, rfl⟩ : ∃ a b c e, q = [a, b, c, e] := by
      match q, hq with
      | [a, b, c, e], _ => exact ⟨a, b, c, e, rfl⟩
    have hss : done.map stripZeros ≠ [] := by simpa using hd
    have hw : (absOf done).w.length + 6 ≤ 64 := by
      have := length_joinColon _ hss
      have := offs_strip_le done h1
      simp only [List.length_cons] at hlen
      simp only [absOf]
      omega
    simp only [runGroups, groupRunL]
    rw [groupRun_conc a b c e _ hw, Option.some_bind, absGroup_absOf a b c e done hd]
    have := ih (done ++ [[a, b, c, e]]) (by simp)
      (by
        intro x hx
        rcases List.mem_append.1 hx with hx | hx
        · exact h1 x hx
        · simp at hx; simp [hx])
      (fun x hx => h2 x (by simp [hx]))
      (by simp only [List.length_append, List.length_cons, List.length_nil] at hlen ⊢; omega)
    simpa using this

theorem forLoop_eq
    (c0 c1 c2 c3 c4 c5 c6 c7 c8 c9 c10 c11 c12 c13 c14 c15 c16 c17 c18 c19 c20 c21 c22 c23
      c24 c25 c26 c27 c28 c29 c30 c31 : Char) (st : RState) :
    forLoop [c0, c1, c2, c3, c4, c5, c6, c7, c8, c9, c10, c11, c12, c13, c14, c15, c16, c17,
        c18, c19, c20, c21, c22, c23, c24, c25, c26, c27, c28, c29, c30, c31] st =
      ((loopBody 1 c1 st).bind fun s => (loopBody 2 c2 s).bind fun s => loopBody 3 c3 s).bind
        (runGroups [[c4, c5, c6, c7], [c8, c9, c10, c11], [c12, c13, c14, c15],
          [c16, c17, c18, c19], [c20, c21, c22, c23], [c24, c25, c26, c27],
          [c28, c29, c30, c31]]) := by
  simp [forLoop, ADDRSIZE, List.range', rd, runGroups, groupRunL, groupRun, Option.bind_assoc]

/-! ## The squash block -/

theorem rd_at (X : List Char) (y : Char) (Y : List Char) (i : Nat) (hi : i = X.length) :
    rd (X ++ y :: Y) i = some y := by
  subst hi
  unfold rd
  rw [List.getElem?_append_right (le_refl _)]
  simp

theorem rd_mid (X H : List Char) (y : Char) (Y : List Char) (i : Nat)
    (hi : i = X.length + H.length) : rd (X ++ (H ++ y :: Y)) i = some y := by
  rw [← List.append_assoc]
  exact rd_at (X ++ H) y Y i (by simp [hi])

theorem wr_at (X : List Char) (y c : Char) (Y : List Char) (i : Nat) (hi : i = X.length) :
    wr (X ++ y :: Y) i c = some (X ++ c :: Y) := by
  subst hi
  simp [wr, List.set_append]

theorem squashLoop_step (f : Nat) (buf buf2 : List Char) (s e : Nat) (c x : Char)
    (h1 : rd buf (e - 1) = some c) (hc : c ≠ NUL) (h2 : rd buf e = some x)
    (h3 : wr buf s x = some buf2) :
    squashLoop (f + 1) buf s e = squashLoop f buf2 (s + 1) (e + 1) := by
  simp [squashLoop, h1, h2, h3, hc]

theorem squashLoop_stop (f : Nat) (buf : List Char) (s e : Nat)
    (h1 : rd buf (e - 1) = some NUL) : squashLoop (f + 1) buf s e = some buf := by
  simp [squashLoop, h1]

theorem cstring_append_nul (X rest : List Char) (h : ∀ x ∈ X, x ≠ NUL) :
    cstring (X ++ NUL :: rest) = some X := by
  unfold cstring
  have hmem : NUL ∈ X ++ NUL :: rest := by simp
  rw [if_pos hmem]
  congr 1
  induction X with
  | nil => simp [List.takeWhile]
  | cons a X ih =>
    have ha : a ≠ NUL := h a (by simp)
    have := ih (fun x hx => h x (by simp [hx])) (by simp)
    rw [List.cons_append, List.takeWhile_cons, this]
    simp [ha]

/-- The copy loop moves the text `T` and its terminator down to `start`. -/
theorem squashLoop_copy (T : List Char) :
    ∀ (X H : List Char) (c : Char) (rest : List Char) (fuel s e : Nat), c ≠ NUL →
      (∀ x ∈ T, x ≠ NUL) → T.length + 2 ≤ fuel → s = X.length →
      e = X.length + H.length + 1 →
      ∃ rest2, squashLoop fuel (X ++ (H ++ c :: (T ++ NUL :: rest))) s e
        = some (X ++ (T ++ NUL :: rest2)) := by
  induction T with
  | nil =>
    intro X H c rest fuel s e hc _ hf hs he
    obtain ⟨f, rfl⟩ : ∃ f, fuel = f + 1 + 1 := ⟨fuel - 2, by simp at hf; omega⟩
    have r1 : rd (X ++ (H ++ c :: ([] ++ NUL :: rest))) (e - 1) = some c :=
      rd_mid X H c _ _ (by omega)
    have r2 : rd (X ++ (H ++ c :: ([] ++ NUL :: rest))) e = some NUL := by
      have := rd_mid X (H ++ [c]) NUL rest e (by simp; omega)
      simpa using this
    cases H with
    | nil =>
      refine ⟨NUL :: rest, ?_⟩
      have w1 : wr (X ++ ([] ++ c :: ([] ++ NUL :: rest))) s NUL
          = some (X ++ NUL :: NUL :: rest) := wr_at X c NUL _ s hs
      rw [squashLoop_step _ _ _ _ _ _ _ r1 hc r2 w1]
      apply squashLoop_stop
      have := rd_mid X [NUL] NUL rest (e + 1 - 1) (by simp at he ⊢; omega)
      simpa using this
    | cons h H =>
      refine ⟨H ++ c :: NUL :: rest, ?_⟩
      have w1 : wr (X ++ (h :: H ++ c :: ([] ++ NUL :: rest))) s NUL
          = some (X ++ NUL :: (H ++ c :: NUL :: rest)) := by
        simpa using wr_at X h NUL (H ++ c :: NUL :: rest) s hs
      rw [squashLoop_step _ _ _ _ _ _ _ r1 hc r2 w1]
      have r3 := rd_mid X (NUL :: H ++ [c]) NUL rest (e + 1 - 1) (by simp at he ⊢; omega)
      have e1 : X ++ (NUL :: H ++ [c] ++ NUL :: rest) = X ++ NUL :: (H ++ c :: NUL :: rest) := by
        simp
      rw [e1] at r3
      have := squashLoop_stop f _ (s + 1) (e + 1) r3
      simpa using this
  | cons t T ih =>
    intro X H c rest fuel s e hc hT hf hs he
    obtain ⟨f, rfl⟩ : ∃ f, fuel = f + 1 := ⟨fuel - 1, by simp at hf; omega⟩
    have ht : t ≠ NUL := hT t (by simp)
    have hT2 : ∀ x ∈ T, x ≠ NUL := fun x hx => hT x (by simp [hx])
    have hf2 : T.length + 2 ≤ f := by simp at hf; omega
    have r1 : rd (X ++ (H ++ c :: (t :: T ++ NUL :: rest))) (e - 1) = some c :=
      rd_mid X H c _ _ (by omega)
    have r2 : rd (X ++ (H ++ c :: (t :: T ++ NUL :: rest))) e = some t := by
      have := rd_mid X (H ++ [c]) t (T ++ NUL :: rest) e (by simp; omega)
      simpa using this
    cases H with
    | nil =>
      have w1 : wr (X ++ ([] ++ c :: (t :: T ++ NUL :: rest))) s t
          = some ((X ++ [t]) ++ ([] ++ t :: (T ++ NUL :: rest))) := by
        simpa using wr_at X c t (t :: T ++ NUL :: rest) s hs
      obtain ⟨rest2, h2⟩ := ih (X ++ [t]) [] t rest f (s + 1) (e + 1) ht hT2 hf2
        (by simp [hs]) (by simp at he ⊢; omega)
      refine ⟨rest2, ?_⟩
      rw [squashLoop_step _ _ _ _ _ _ _ r1 hc r2 w1, h2]
      simp
    | cons h H =>
      have w1 : wr (X ++ (h :: H ++ c :: (t :: T ++ NUL :: rest))) s t
          = some ((X ++ [t]) ++ ((H ++ [c]) ++ t :: (T ++ NUL :: rest))) := by
        simpa using wr_at X h t (H ++ c :: (t :: T ++ NUL :: rest)) s hs
      obtain ⟨rest2, h2⟩ := ih (X ++ [t]) (H ++ [c]) t rest f (s + 1) (e + 1) ht hT2 hf2
        (by simp [hs]) (by simp at he ⊢; omega)
      refine ⟨rest2, ?_⟩
      rw [squashLoop_step _ _ _ _ _ _ _ r1 hc r2 w1, h2]
      simp

/-- With `start = ende` the copy loop leaves the buffer as it is. -/
theorem squashLoop_self (T : List Char) :
    ∀ (X : List Char) (c : Char) (rest : List Char) (fuel s : Nat), c ≠ NUL →
      (∀ x ∈ T, x ≠ NUL) → T.length + 2 ≤ fuel → s = X.length + 1 →
      squashLoop fuel (X ++ c :: (T ++ NUL :: rest)) s s
        = some (X ++ c :: (T ++ NUL :: rest)) := by
  induction T with
  | nil =>
    intro X c rest fuel s hc _ hf hs
    obtain ⟨f, rfl⟩ : ∃ f, fuel = f + 1 + 1 := ⟨fuel - 2, by simp at hf; omega⟩
    have r1 : rd (X ++ c :: ([] ++ NUL :: rest)) (s - 1) = some c :=
      rd_at X c _ _ (by omega)
    have r2 : rd (X ++ c :: ([] ++ NUL :: rest)) s = some NUL := by
      have := rd_mid X [c] NUL rest s (by simp; omega)
      simpa using this
    have w1 : wr (X ++ c :: ([] ++ NUL :: rest)) s NUL
        = some (X ++ c :: ([] ++ NUL :: rest)) := by
      have := wr_at (X ++ [c]) NUL NUL rest s (by simp; omega)
      simpa using this
    rw [squashLoop_step _ _ _ _ _ _ _ r1 hc r2 w1]
    apply squashLoop_stop
    simpa using r2
  | cons t T ih =>
    intro X c rest fuel s hc hT hf hs
    obtain ⟨f, rfl⟩ : ∃ f, fuel = f + 1 := ⟨fuel - 1, by simp at hf; omega⟩
    have ht : t ≠ NUL := hT t (by simp)
    have hT2 : ∀ x ∈ T, x ≠ NUL := fun x hx => hT x (by simp [hx])
    have hf2 : T.length + 2 ≤ f := by simp at hf; omega
    have r1 : rd (X ++ c :: (t :: T ++ NUL :: rest)) (s - 1) = some c :=
      rd_at X c _ _ (by omega)
    have r2 : rd (X ++ c :: (t :: T ++ NUL :: rest)) s = some t := by
      have := rd_mid X [c] t (T ++ NUL :: rest) s (by simp; omega)
      simpa using this
    have w1 : wr (X ++ c :: (t :: T ++ NUL :: rest)) s t
        = some (X ++ c :: (t :: T ++ NUL :: rest)) := by
      have := wr_at (X ++ [c]) t t (T ++ NUL :: rest) s (by simp; omega)
      simpa using this
    rw [squashLoop_step _ _ _ _ _ _ _ r1 hc r2 w1]
    have := ih (X ++ [c]) t rest f (s + 1) ht hT2 hf2 (by simp; omega)
    simpa using this

theorem length_colonZeros (n : Nat) : (colonZeros n).length = 2 * n := by
  induction n with
  | zero => rfl
  | succ n ih => simp [colonZeros, ih]; omega

theorem colon_ne_nul : ':' ≠ NUL := by decide

theorem zero_ne_nul : '0' ≠ NUL := by decide

theorem colonZeros_ne_nul (n : Nat) : ∀ x ∈ colonZeros n, x ≠ NUL := by
  induction n with
  | zero => simp [colonZeros]
  | succ n ih =>
    intro x hx
    simp only [colonZeros, List.mem_cons] at hx
    rcases hx with rfl | rfl | hx
    · exact colon_ne_nul
    · exact zero_ne_nul
    · exact ih x hx

theorem bufOf_eq (w : List Char) (h : w.length < 64) :
    bufOf w = w ++ NUL :: List.replicate (63 - w.length) NUL := by
  unfold bufOf
  have : 64 - w.length = (63 - w.length) + 1 := by omega
  rw [this, List.replicate_succ]

/-- The squash block when the recorded run is followed by another group: the run is
replaced by `::` and the text after it is moved down. -/
theorem squash_inner (P T : List Char) (n : Nat) (l : Bool) (st z : Nat)
    (hP : ∀ x ∈ P, x ≠ NUL) (hT : ∀ x ∈ T, x ≠ NUL)
    (hlen : P.length + 2 * n + 2 + T.length < 64) :
    (squash ⟨bufOf (P ++ '0' :: (colonZeros n ++ ':' :: T)), P.length + 2 * (n + 1), l, st,
        n + 1, z⟩).bind cstring
      = some ((if P = [] then [':'] else P) ++ ':' :: T) := by
  have hw : (P ++ '0' :: (colonZeros n ++ ':' :: T)).length < 64 := by
    simp [length_colonZeros]; omega
  rw [bufOf_eq _ hw]
  generalize List.replicate (63 - (P ++ '0' :: (colonZeros n ++ ':' :: T)).length) NUL = rest
  unfold squash
  have h0 : ¬ (P.length + 2 * (n + 1) < (n + 1) * 2) := by omega
  have h1 : P.length + 2 * (n + 1) - (n + 1) * 2 = P.length := by omega
  simp only [h0, if_false, h1]
  by_cases hPe : P = []
  · subst hPe
    simp only [List.length_nil, if_true, List.nil_append]
    have w0 : wr ('0' :: (colonZeros n ++ ':' :: T) ++ NUL :: rest) 0 ':'
        = some (':' :: (colonZeros n ++ ':' :: T) ++ NUL :: rest) := by
      simpa using wr_at [] '0' ':' ((colonZeros n ++ ':' :: T) ++ NUL :: rest) 0 rfl
    rw [w0]
    simp only [Option.map_some', Option.some_bind]
    cases n with
    | zero =>
      have w1 : wr (':' :: (colonZeros 0 ++ ':' :: T) ++ NUL :: rest) (0 + 1) ':'
          = some ([':'] ++ ':' :: (T ++ NUL :: rest)) := by
        simpa [colonZeros] using wr_at [':'] ':' ':' (T ++ NUL :: rest) 1 rfl
      rw [w1]
      simp only [Option.some_bind]
      rw [squashLoop_self T [':'] ':' rest _ _ colon_ne_nul hT (by simp [ADDRSIZE]; omega)
        (by simp)]
      simp only [Option.some_bind]
      have := cstring_append_nul (':' :: ':' :: T) rest (by
        intro x hx
        simp only [List.mem_cons] at hx
        rcases hx with rfl | rfl | hx
        · exact colon_ne_nul
        · exact colon_ne_nul
        · exact hT x hx)
      simpa using this
    | succ k =>
      have w1 : wr (':' :: (colonZeros (k + 1) ++ ':' :: T) ++ NUL :: rest) (0 + 1) ':'
          = some ([':', ':'] ++ (('0' :: colonZeros k) ++ ':' :: (T ++ NUL :: rest))) := by
        simpa [colonZeros] using
          wr_at [':'] ':' ':' ('0' :: (colonZeros k ++ ':' :: (T ++ NUL :: rest))) 1 rfl
      rw [w1]
      simp only [Option.some_bind]
      obtain ⟨rest2, h2⟩ := squashLoop_copy T [':', ':'] ('0' :: colonZeros k) ':' rest
        (ADDRSIZE * 2) (0 + 1 + 1) (0 + 2 * (k + 1 + 1)) colon_ne_nul hT
        (by simp [ADDRSIZE]; omega) (by simp)
        (by simp [length_colonZeros]; omega)
      rw [h2]
      simp only [Option.some_bind]
      have := cstring_append_nul (':' :: ':' :: T) rest2 (by
        intro x hx
        simp only [List.mem_cons] at hx
        rcases hx with rfl | rfl | hx
        · exact colon_ne_nul
        · exact colon_ne_nul
        · exact hT x hx)
      simpa using this
  · have hPl : P.length ≠ 0 := by
      intro h; exact hPe (List.length_eq_zero.1 h)
    simp only [hPl, hPe, if_false, Option.some_bind]
    have w0 : wr (P ++ '0' :: (colonZeros n ++ ':' :: T) ++ NUL :: rest) P.length ':'
        = some ((P ++ [':']) ++ (colonZeros n ++ ':' :: (T ++ NUL :: rest))) := by
      simpa using wr_at P '0' ':' ((colonZeros n ++ ':' :: T) ++ NUL :: rest) _ rfl
    rw [w0]
    simp only [Option.some_bind]
    obtain ⟨rest2, h2⟩ := squashLoop_copy T (P ++ [':']) (colonZeros n) ':' rest
      (ADDRSIZE * 2) (P.length + 1) (P.length + 2 * (n + 1)) colon_ne_nul hT
      (by simp [ADDRSIZE]; omega) (by simp)
      (by simp [length_colonZeros]; omega)
    rw [h2]
    simp only [Option.some_bind]
    have := cstring_append_nul (P ++ ':' :: T) rest2 (by
      intro x hx
      simp only [List.mem_append, List.mem_cons] at hx
      rcases hx with hx | rfl | hx
      · exact hP x hx
      · exact colon_ne_nul
      · exact hT x hx)
    simpa using this

/-- The squash block when the recorded run reaches the last group: the copy loop
does not run, only the first `0` of the run (and, at the start of the buffer, the
colon after it) is overwritten. -/
theorem squash_trailing (P : List Char) (n : Nat) (l : Bool) (st z : Nat)
    (hP : ∀ x ∈ P, x ≠ NUL) (hcase : P = [] → 1 ≤ n)
    (hlen : P.length + 2 * n + 1 < 64) :
    (squash ⟨bufOf (P ++ '0' :: colonZeros n), P.length + 2 * (n + 1), l, st,
        n + 1, z⟩).bind cstring
      = some (if P = [] then ':' :: ':' :: (colonZeros n).drop 1
              else P ++ ':' :: colonZeros n) := by
  have hw : (P ++ '0' :: colonZeros n).length < 64 := by
    simp [length_colonZeros]; omega
  rw [bufOf_eq _ hw]
  generalize List.replicate (63 - (P ++ '0' :: colonZeros n).length) NUL = rest
  unfold squash
  have h0 : ¬ (P.length + 2 * (n + 1) < (n + 1) * 2) := by omega
  have h1 : P.length + 2 * (n + 1) - (n + 1) * 2 = P.length := by omega
  simp only [h0, if_false, h1]
  by_cases hPe : P = []
  · subst hPe
    obtain ⟨k, rfl⟩ : ∃ k, n = k + 1 := ⟨n - 1, by have := hcase rfl; omega⟩
    simp only [List.length_nil, if_true, List.nil_append]
    have w0 : wr ('0' :: colonZeros (k + 1) ++ NUL :: rest) 0 ':'
        = some (':' :: colonZeros (k + 1) ++ NUL :: rest) := by
      simpa using wr_at [] '0' ':' (colonZeros (k + 1) ++ NUL :: rest) 0 rfl
    rw [w0]
    simp only [Option.map_some', Option.some_bind]
    have w1 : wr (':' :: colonZeros (k + 1) ++ NUL :: rest) (0 + 1) ':'
        = some ([':', ':'] ++ (('0' :: colonZeros k) ++ NUL :: rest)) := by
      simpa [colonZeros] using
        wr_at [':'] ':' ':' ('0' :: (colonZeros k ++ NUL :: rest)) 1 rfl
    rw [w1]
    simp only [Option.some_bind]
    have r1 := rd_mid [':', ':'] ('0' :: colonZeros k) NUL rest (0 + 2 * (k + 1 + 1) - 1)
      (by simp [length_colonZeros]; omega)
    rw [show ADDRSIZE * 2 = 63 + 1 from rfl, squashLoop_stop _ _ _ _ r1]
    simp only [Option.some_bind]
    have := cstring_append_nul (':' :: ':' :: '0' :: colonZeros k) rest (by
      intro x hx
      simp only [List.mem_cons] at hx
      rcases hx with rfl | rfl | rfl | hx
      · exact colon_ne_nul
      · exact colon_ne_nul
      · exact zero_ne_nul
      · exact colonZeros_ne_nul k x hx)
    simpa [colonZeros] using this
  · have hPl : P.length ≠ 0 := by
      intro h; exact hPe (List.length_eq_zero.1 h)
    simp only [hPl, hPe, if_false, Option.some_bind]
    have w0 : wr (P ++ '0' :: colonZeros n ++ NUL :: rest) P.length ':'
        = some ((P ++ [':']) ++ (colonZeros n ++ NUL :: rest)) := by
      simpa using wr_at P '0' ':' (colonZeros n ++ NUL :: rest) _ rfl
    rw [w0]
    simp only [Option.some_bind]
    have r1 := rd_mid (P ++ [':']) (colonZeros n) NUL rest (P.length + 2 * (n + 1) - 1)
      (by simp [length_colonZeros]; omega)
    rw [show ADDRSIZE * 2 = 63 + 1 from rfl, squashLoop_stop _ _ _ _ r1]
    simp only [Option.some_bind]
    have := cstring_append_nul (P ++ ':' :: colonZeros n) rest (by
      intro x hx
      simp only [List.mem_append, List.mem_cons] at hx
      rcases hx with hx | rfl | hx
      · exact hP x hx
      · exact colon_ne_nul
      · exact colonZeros_ne_nul n x hx)
    simpa using this

/-! ## The state after the loop, for 32 digits -/

theorem exists_cons_of_length (d : List Char) (n : Nat) (h : d.length = n + 1) :
    ∃ a t, d = a :: t ∧ t.length = n := by
  cases d with
  | nil => simp at h
  | cons a t => exact ⟨a, t, rfl, by simpa using h⟩

theorem exists_digits (d : List Char) (h : d.length = 32) :
    ∃ c0 c1 c2 c3 c4 c5 c6 c7 c8 c9 c10 c11 c12 c13 c14 c15 c16 c17 c18 c19 c20 c21 c22 c23 c24 c25 c26 c27 c28 c29 c30 c31 : Char,
      d = [c0, c1, c2, c3, c4, c5, c6, c7, c8, c9, c10, c11, c12, c13, c14, c15, c16, c17, c18, c19, c20, c21, c22, c23, c24, c25, c26, c27, c28, c29, c30, c31] := by
  obtain ⟨c0, t0, rfl, h0⟩ := exists_cons_of_length d 31 h
  obtain ⟨c1, t1, rfl, h1⟩ := exists_cons_of_length t0 30 h0
  obtain ⟨c2, t2, rfl, h2⟩ := exists_cons_of_length t1 29 h1
  obtain ⟨c3, t3, rfl, h3⟩ := exists_cons_of_length t2 28 h2
  obtain ⟨c4, t4, rfl, h4⟩ := exists_cons_of_length t3 27 h3
  obtain ⟨c5, t5, rfl, h5⟩ := exists_cons_of_length t4 26 h4
  obtain ⟨c6, t6, rfl, h6⟩ := exists_cons_of_length t5 25 h5
  obtain ⟨c7, t7, rfl, h7⟩ := exists_cons_of_length t6 24 h6
  obtain ⟨c8, t8, rfl, h8⟩ := exists_cons_of_length t7 23 h7
  obtain ⟨c9, t9, rfl, h9⟩ := exists_cons_of_length t8 22 h8
  obtain ⟨c10, t10, rfl, h10⟩ := exists_cons_of_length t9 21 h9
  obtain ⟨c11, t11, rfl, h11⟩ := exists_cons_of_length t10 20 h10
  obtain ⟨c12, t12, rfl, h12⟩ := exists_cons_of_length t11 19 h11
  obtain ⟨c13, t13, rfl, h13⟩ := exists_cons_of_length t12 18 h12
  obtain ⟨c14, t14, rfl, h14⟩ := exists_cons_of_length t13 17 h13
  obtain ⟨c15, t15, rfl, h15⟩ := exists_cons_of_length t14 16 h14
  obtain ⟨c16, t16, rfl, h16⟩ := exists_cons_of_length t15 15 h15
  obtain ⟨c17, t17, rfl, h17⟩ := exists_cons_of_length t16 14 h16
  obtain ⟨c18, t18, rfl, h18⟩ := exists_cons_of_length t17 13 h17
  obtain ⟨c19, t19, rfl, h19⟩ := exists_cons_of_length t18 12 h18
  obtain ⟨c20, t20, rfl, h20⟩ := exists_cons_of_length t19 11 h19
  obtain ⟨c21, t21, rfl, h21⟩ := exists_cons_of_length t20 10 h20
  obtain ⟨c22, t22, rfl, h22⟩ := exists_cons_of_length t21 9 h21
  obtain ⟨c23, t23, rfl, h23⟩ := exists_cons_of_length t22 8 h22
  obtain ⟨c24, t24, rfl, h24⟩ := exists_cons_of_length t23 7 h23
  obtain ⟨c25, t25, rfl, h25⟩ := exists_cons_of_length t24 6 h24
  obtain ⟨c26, t26, rfl, h26⟩ := exists_cons_of_length t25 5 h25
  obtain ⟨c27, t27, rfl, h27⟩ := exists_cons_of_length t26 4 h26
  obtain ⟨c28, t28, rfl, h28⟩ := exists_cons_of_length t27 3 h27
  obtain ⟨c29, t29, rfl, h29⟩ := exists_cons_of_length t28 2 h28
  obtain ⟨c30, t30, rfl, h30⟩ := exists_cons_of_length t29 1 h29
  obtain ⟨c31, t31, rfl, h31⟩ := exists_cons_of_length t30 0 h30
  have : t31 = [] := List.length_eq_zero.1 h31
  subst this
  exact ⟨c0, c1, c2, c3, c4, c5, c6, c7, c8, c9, c10, c11, c12, c13, c14, c15, c16, c17, c18, c19, c20, c21, c22, c23, c24, c25, c26, c27, c28, c29, c30, c31, rfl⟩

/-- After the loop the buffer holds the stripped groups joined by colons, and the
run bookkeeping is that of `trk`. -/
theorem reduce_v6_phase1 (d : List Char) (hlen : d.length = 32) :
    reduce_v6 d =
      (if (absOf (quartets d)).m > 0 then squash (absOf (quartets d)).conc
       else some (bufOf (absOf (quartets d)).w)).bind cstring := by
  obtain ⟨c0, c1, c2, c3, c4, c5, c6, c7, c8, c9, c10, c11, c12, c13, c14, c15, c16, c17, c18, c19, c20, c21, c22, c23, c24, c25, c26, c27, c28, c29, c30, c31, rfl⟩ := exists_digits d hlen
  have hq : quartets [c0, c1, c2, c3, c4, c5, c6, c7, c8, c9, c10, c11, c12, c13, c14, c15, c16, c17, c18, c19, c20, c21, c22, c23, c24, c25, c26, c27, c28, c29, c30, c31] = [[c0, c1, c2, c3]] ++ [[c4, c5, c6, c7], [c8, c9, c10, c11], [c12, c13, c14, c15], [c16, c17, c18, c19], [c20, c21, c22, c23], [c24, c25, c26, c27], [c28, c29, c30, c31]] := by
    simp [quartets]
  have hrun := runGroups_absOf [[c4, c5, c6, c7], [c8, c9, c10, c11], [c12, c13, c14, c15], [c16, c17, c18, c19], [c20, c21, c22, c23], [c24, c25, c26, c27], [c28, c29, c30, c31]] [[c0, c1, c2, c3]] (by simp) (by simp) (by simp)
    (by simp)
  rw [← hq] at hrun
  unfold reduce_v6
  have h0 : rd [c0, c1, c2, c3, c4, c5, c6, c7, c8, c9, c10, c11, c12, c13, c14, c15, c16, c17, c18, c19, c20, c21, c22, c23, c24, c25, c26, c27, c28, c29, c30, c31] 0 = some c0 := rfl
  rw [h0]
  simp only [Option.some_bind]
  rw [first_conc c0]
  simp only [Option.some_bind]
  rw [forLoop_eq, firstRun_conc, absFirstGroup_absOf]
  simp only [Option.some_bind]
  rw [hrun]
  simp only [Option.some_bind]
  rfl

/-! ## The bookkeeping finds the first longest run -/

theorem mem_boolLists (fs : List Bool) : fs ∈ boolLists fs.length := by
  induction fs with
  | nil => simp [boolLists]
  | cons f fs ih =>
    cases f <;> simp [boolLists, ih]

set_option maxRecDepth 100000 in
theorem trkOk_boolLists : (boolLists 8).all trkOk = true := by decide

theorem trkOk_of_length (fs : List Bool) (h : fs.length = 8) : trkOk fs = true := by
  have h1 := mem_boolLists fs
  rw [h] at h1
  exact List.all_eq_true.1 trkOk_boolLists fs h1

/-! ## The text of the groups and what `reduce_v6` returns -/

theorem joinColon_cons (s : List Char) (ss : List (List Char)) (h : ss ≠ []) :
    joinColon (s :: ss) = s ++ ':' :: joinColon ss := by
  cases ss with
  | nil => exact absurd rfl h
  | cons a t => rfl

theorem joinColon_append (a b : List (List Char)) (ha : a ≠ []) (hb : b ≠ []) :
    joinColon (a ++ b) = joinColon a ++ ':' :: joinColon b := by
  induction a with
  | nil => exact absurd rfl ha
  | cons x a ih =>
    cases a with
    | nil => simp [joinColon_cons _ _ hb, joinColon]
    | cons y a =>
      have h1 := ih (by simp)
      have e1 : joinColon (x :: y :: a ++ b) = x ++ ':' :: joinColon (y :: a ++ b) :=
        joinColon_cons x (y :: a ++ b) (by simp)
      have e2 : joinColon (x :: y :: a) = x ++ ':' :: joinColon (y :: a) :=
        joinColon_cons x (y :: a) (by simp)
      rw [e1, h1, e2]
      simp

theorem joinColon_replicate (n : Nat) :
    joinColon (List.replicate (n + 1) ['0']) = '0' :: colonZeros n := by
  induction n with
  | zero => rfl
  | succ n ih =>
    rw [List.replicate_succ, joinColon_cons _ _ (by simp), ih]
    rfl

theorem offs_append (a b : List (List Char)) : offs (a ++ b) = offs a + offs b := by
  simp [offs]

theorem offs_replicate (n : Nat) : offs (List.replicate n ['0']) = 2 * n := by
  induction n with
  | zero => rfl
  | succ n ih =>
    rw [List.replicate_succ]
    simp only [offs, List.map_cons, List.sum_cons] at ih ⊢
    simp only [List.length_cons, List.length_nil]
    omega

theorem joinColon_ne_nul (ss : List (List Char)) (h : ∀ s ∈ ss, ∀ x ∈ s, x ≠ NUL) :
    ∀ x ∈ joinColon ss, x ≠ NUL := by
  induction ss with
  | nil => simp [joinColon]
  | cons s ss ih =>
    cases ss with
    | nil => simpa [joinColon] using h
    | cons t ss =>
      intro x hx
      rw [joinColon_cons _ _ (by simp)] at hx
      simp only [List.mem_append, List.mem_cons] at hx
      rcases hx with hx | rfl | hx
      · exact h s (by simp) x hx
      · exact colon_ne_nul
      · exact ih (fun s hs => h s (by simp [hs])) x hx

/-- The squash block on a buffer that holds the groups `pre`, then `n + 1` zero groups,
then the groups `post`. -/
theorem squash_groups (pre post : List (List Char)) (n : Nat) (l : Bool) (st z : Nat)
    (hpre : ∀ s ∈ pre, ∀ x ∈ s, x ≠ NUL) (hpost : ∀ s ∈ post, ∀ x ∈ s, x ≠ NUL)
    (hlen : offs (pre ++ List.replicate (n + 1) ['0'] ++ post) ≤ 40)
    (hcase : pre = [] → post = [] → 1 ≤ n) :
    (squash ⟨bufOf (joinColon (pre ++ List.replicate (n + 1) ['0'] ++ post)),
        offs pre + 2 * (n + 1), l, st, n + 1, z⟩).bind cstring
      = some (if post = [] then
                (if pre = [] then ':' :: ':' :: (colonZeros n).drop 1
                 else joinColon pre ++ ':' :: ':' :: colonZeros n)
              else joinColon pre ++ ':' :: ':' :: joinColon post) := by
  have hz : List.replicate (n + 1) ['0'] ≠ [] := by simp
  simp only [offs_append, offs_replicate] at hlen
  by_cases hpo : post = []
  · subst hpo
    simp only [List.append_nil, if_true]
    by_cases hpr : pre = []
    · subst hpr
      have := squash_trailing [] n l st z (by simp) (fun _ => hcase rfl rfl) (by simp; omega)
      simpa [joinColon_replicate, offs] using this
    · have hP : ∀ x ∈ joinColon pre ++ [':'], x ≠ NUL := by
        intro x hx
        rcases List.mem_append.1 hx with hx | hx
        · exact joinColon_ne_nul pre hpre x hx
        · simp at hx; subst hx; exact colon_ne_nul
      have hl := length_joinColon pre hpr
      have := squash_trailing (joinColon pre ++ [':']) n l st z hP (by simp)
        (by simp; omega)
      rw [joinColon_append _ _ hpr hz, joinColon_replicate]
      simpa [hpr, hl] using this
  · have hT := joinColon_ne_nul post hpost
    have hlp := length_joinColon post hpo
    simp only [hpo, if_false]
    by_cases hpr : pre = []
    · subst hpr
      have := squash_inner [] (joinColon post) n l st z (by simp) hT (by simp; omega)
      rw [List.nil_append, joinColon_append _ _ hz hpo, joinColon_replicate]
      simpa [offs, joinColon] using this
    · have hP : ∀ x ∈ joinColon pre ++ [':'], x ≠ NUL := by
        intro x hx
        rcases List.mem_append.1 hx with hx | hx
        · exact joinColon_ne_nul pre hpre x hx
        · simp at hx; subst hx; exact colon_ne_nul
      have hl := length_joinColon pre hpr
      have := squash_inner (joinColon pre ++ [':']) (joinColon post) n l st z hP hT
        (by simp; omega)
      rw [List.append_assoc, joinColon_append _ _ hpr (by simp),
        joinColon_append _ _ hz hpo, joinColon_replicate]
      simpa [hpr, hl] using this

theorem quartets_length_four (d : List Char) : ∀ q ∈ quartets d, q.length = 4 := by
  induction d using quartets.induct with
  | case1 a b c e rest ih =>
    intro q hq
    simp only [quartets, List.mem_cons] at hq
    rcases hq with rfl | hq
    · rfl
    · exact ih q hq
  | case2 d h =>
    intro q hq
    rw [quartets] at hq
    · simp at hq
    · exact h

theorem quartets_mem (d : List Char) : ∀ q ∈ quartets d, ∀ x ∈ q, x ∈ d := by
  induction d using quartets.induct with
  | case1 a b c e rest ih =>
    intro q hq x hx
    simp only [quartets, List.mem_cons] at hq
    rcases hq with rfl | hq
    · simp only [List.mem_cons, List.mem_singleton, List.not_mem_nil, or_false] at hx
      rcases hx with rfl | rfl | rfl | rfl <;> simp
    · have := ih q hq x hx
      simp [this]
  | case2 d h =>
    intro q hq
    rw [quartets] at hq
    · simp at hq
    · exact h

theorem quartets_length (d : List Char) (h : d.length = 32) : (quartets d).length = 8 := by
  obtain ⟨c0, c1, c2, c3, c4, c5, c6, c7, c8, c9, c10, c11, c12, c13, c14, c15, c16, c17,
    c18, c19, c20, c21, c22, c23, c24, c25, c26, c27, c28, c29, c30, c31, rfl⟩ :=
    exists_digits d h
  simp [quartets]

theorem stripZeros_of_isZeroGroup (g : List Char) (h : isZeroGroup g = true) :
    stripZeros g = ['0'] := by
  unfold stripZeros
  have : g.dropWhile (fun c => decide (c = '0')) = [] := by
    rw [List.dropWhile_eq_nil_iff]
    simpa [isZeroGroup] using h
  simp [this]

theorem stripZeros_mem (g : List Char) : ∀ x ∈ stripZeros g, x ∈ g ∨ x = '0' := by
  intro x hx
  unfold stripZeros at hx
  split at hx
  · simp at hx; exact Or.inr hx
  · exact Or.inl ((List.dropWhile_sublist _).subset hx)

theorem strips_ne_nul (d : List Char) (hnul : ∀ c ∈ d, c ≠ NUL) :
    ∀ s ∈ (quartets d).map stripZeros, ∀ x ∈ s, x ≠ NUL := by
  intro s hs x hx
  obtain ⟨q, hq, rfl⟩ := List.mem_map.1 hs
  rcases stripZeros_mem q x hx with h | h
  · exact hnul x (quartets_mem d q hq x h)
  · subst h; exact zero_ne_nul

theorem strips_run (qs : List (List Char)) (i m : Nat)
    (h : ((qs.map isZeroGroup).drop i).take m = List.replicate m true) :
    ((qs.map stripZeros).drop i).take m = List.replicate m ['0'] := by
  rw [← List.map_drop, ← List.map_take] at h ⊢
  rw [List.eq_replicate_iff] at h ⊢
  obtain ⟨h1, h2⟩ := h
  refine ⟨by simpa using h1, ?_⟩
  intro b hb
  obtain ⟨q, hq, rfl⟩ := List.mem_map.1 hb
  exact stripZeros_of_isZeroGroup q (h2 _ (List.mem_map_of_mem _ hq))

theorem reduce_v6_eq (d : List Char) (hlen : d.length = 32) (hnul : ∀ c ∈ d, c ≠ NUL) :
    reduce_v6 d = some (codeText ((quartets d).map stripZeros)
      (firstLongest ((quartets d).map isZeroGroup))
      (longestRun ((quartets d).map isZeroGroup))) := by
  have hq8 := quartets_length d hlen
  have hq4 := quartets_length_four d
  have hss := strips_ne_nul d hnul
  have hoffs := offs_strip_le (quartets d) hq4
  rw [hq8] at hoffs
  have hne : (quartets d).map stripZeros ≠ [] := by
    intro h
    have := congrArg List.length h
    simp [hq8] at this
  have hjl := length_joinColon _ hne
  have hok := trkOk_of_length ((quartets d).map isZeroGroup) (by simp [hq8])
  rw [reduce_v6_phase1 d hlen]
  simp only [trkOk, Bool.and_eq_true, Bool.or_eq_true, beq_iff_eq] at hok
  generalize hzs : (quartets d).map isZeroGroup = zs at hok ⊢
  generalize hi : firstLongest zs = i at hok ⊢
  generalize hL : longestRun zs = L at hok ⊢
  obtain ⟨hm, hrest⟩ := hok
  have hm2 : (absOf (quartets d)).m = L := by simp only [absOf, hzs, hm]
  rw [hm2]
  by_cases hL0 : L = 0
  · have hw : (absOf (quartets d)).w = joinColon ((quartets d).map stripZeros) := rfl
    simp only [hL0, gt_iff_lt, lt_self_iff_false, if_false, Option.some_bind, hw, codeText,
      if_true]
    rw [bufOf_eq _ (by omega)]
    exact cstring_append_nul _ _ (joinColon_ne_nul _ hss)
  · obtain ⟨n, rfl⟩ : ∃ n, L = n + 1 := ⟨L - 1, by omega⟩
    rcases hrest with h0 | ⟨hg, hrun⟩
    · omega
    have hrunS := strips_run (quartets d) i (n + 1) (by rw [hzs]; exact hrun)
    have hbound : i + (n + 1) ≤ 8 := by
      have := congrArg List.length hrun
      simp only [List.length_take, List.length_drop, List.length_replicate] at this
      have hl : zs.length = 8 := by rw [← hzs]; simp [hq8]
      omega
    generalize hssd : (quartets d).map stripZeros = ss at *
    have hsl : ss.length = 8 := by rw [← hssd]; simp [hq8]
    have hdec : ss = ss.take i ++ List.replicate (n + 1) ['0'] ++ ss.drop (i + (n + 1)) := by
      have e1 : ss = ss.take i ++ ss.drop i := (List.take_append_drop i ss).symm
      have e2 : ss.drop i = (ss.drop i).take (n + 1) ++ (ss.drop i).drop (n + 1) :=
        (List.take_append_drop _ _).symm
      rw [hrunS, List.drop_drop] at e2
      rw [List.append_assoc, ← e2]
      exact e1
    have htake : ss.take (i + (n + 1)) = ss.take i ++ List.replicate (n + 1) ['0'] := by
      rw [List.take_add, hrunS]
    have hst : (absOf (quartets d)).conc
        = ⟨bufOf (joinColon (ss.take i ++ List.replicate (n + 1) ['0']
              ++ ss.drop (i + (n + 1)))),
            offs (ss.take i) + 2 * (n + 1), false, (joinColon ss).length, n + 1,
            (trk zs).z⟩ := by
      simp only [AState.conc, absOf, hzs, hssd, hg, hm, htake, offs_append, offs_replicate]
      rw [← hdec]
    have hsq := squash_groups (ss.take i) (ss.drop (i + (n + 1))) n false
      (joinColon ss).length (trk zs).z
      (fun s hs => hss s (List.mem_of_mem_take hs))
      (fun s hs => hss s (List.mem_of_mem_drop hs))
      (by rw [← hdec]; omega)
      (by
        intro h1 h2
        have := congrArg List.length hdec
        simp only [h1, h2, List.length_append, List.length_replicate, List.length_nil, hsl]
          at this
        omega)
    simp only [Nat.succ_pos, gt_iff_lt, if_true, hst, hsq]
    congr 1
    unfold codeText
    simp only [Nat.succ_ne_zero, if_false, hsl, Nat.add_sub_cancel]
    by_cases hlt : i + (n + 1) < 8
    · have : ss.drop (i + (n + 1)) ≠ [] := by
        intro h
        have := congrArg List.length h
        simp only [List.length_drop, List.length_nil, hsl] at this
        omega
      simp [hlt, this, elide]
    · have : ss.drop (i + (n + 1)) = [] := by
        apply List.drop_of_length_le; omega
      simp only [hlt, this, if_true, if_false]
      by_cases hi0 : i = 0
      · simp [hi0]
      · have : ss.take i ≠ [] := by
          intro h
          have := congrArg List.length h
          simp only [List.length_take, List.length_nil, hsl] at this
          omega
        simp [hi0, this]

/-! ## The table loop of `parse_proc` -/

theorem bytes_map_some (l : List Char) : bytes (l.map some) = some l := by
  induction l with
  | nil => rfl
  | cons a l ih => simp [bytes, ih]

theorem scan_spaces (line : List Char) (addr : List (Option Char)) :
    ∀ (rest : List Char) (i token : Nat), ADDRSIZE ≤ i → token ≤ 3 →
      scan line rest i token addr =
        (match nthSpace rest (3 - token) i with
          | none => some none
          | some j => flagEntry line (bytes addr) j).map (fun e => (addr, e)) := by
  intro rest
  induction rest with
  | nil => intro i token _ _; simp [scan, nthSpace]
  | cons c rest ih =>
    intro i token hi ht
    have hn : ¬ i < ADDRSIZE := by omega
    by_cases hc : isspace c = true
    · by_cases h4 : token + 1 = 4
      · have h3 : 3 - token = 0 := by omega
        simp only [scan, hn, if_false, hc, if_true, h4, nthSpace, h3, flagEntry]
        cases lineAt line (i + 2) with
        | none => rfl
        | some f =>
          by_cases hf : f = '1'
          · simp only [Option.some_bind, hf, ne_eq, not_true_eq_false, if_false]
            cases bytes addr with
            | none => rfl
            | some a =>
              simp only [Option.some_bind]
              cases reduce_v6 a <;> rfl
          · simp [hf]
      · have h3 : 3 - token ≠ 0 := by omega
        have := ih (i + 1) (token + 1) (by omega) (by omega)
        simp only [scan, hn, if_false, hc, if_true, h4, nthSpace, h3, this]
        rfl
    · have := ih (i + 1) token (by omega) ht
      simp only [scan, hn, if_false, hc, nthSpace, this]
      rfl

theorem take_set_succ (addr : List (Option Char)) (n : Nat) (x : Option Char)
    (h : n < addr.length) : (addr.set n x).take (n + 1) = addr.take n ++ [x] := by
  induction addr generalizing n with
  | nil => simp at h
  | cons a addr ih =>
    cases n with
    | zero => simp
    | succ n =>
      have := ih n (by simpa using h)
      simp [List.set, this]

theorem scan_copy (line : List Char) :
    ∀ (rest pre : List Char) (addr : List (Option Char)), line = pre ++ rest →
      pre.length ≤ ADDRSIZE → addr.length = ADDRSIZE → addr.take pre.length = pre.map some →
      ∃ addr2 : List (Option Char), addr2.length = ADDRSIZE ∧
        scan line rest pre.length 0 addr = (entryOf line).map (fun e => (addr2, e)) := by
  intro rest
  induction rest with
  | nil =>
    intro pre addr hl hp ha _
    refine ⟨addr, ha, ?_⟩
    have : line.drop ADDRSIZE = [] := by
      apply List.drop_of_length_le
      simp [hl, hp]
    simp [scan, entryOf, fourthSpace, this, nthSpace]
  | cons c rest ih =>
    intro pre addr hl hp ha ht
    by_cases hlt : pre.length < ADDRSIZE
    · obtain ⟨addr2, h1, h2⟩ := ih (pre ++ [c]) (addr.set pre.length (some c))
        (by simp [hl]) (by simp; omega) (by simp [ha])
        (by
          have := take_set_succ addr pre.length (some c) (by omega)
          simp only [List.length_append, List.length_cons, List.length_nil, List.map_append,
            List.map_cons, List.map_nil]
          rw [← ht]
          exact this)
      refine ⟨addr2, h1, ?_⟩
      simp only [List.length_append, List.length_cons, List.length_nil] at h2
      simp only [scan, hlt, if_true]
      exact h2
    · have hp32 : pre.length = ADDRSIZE := by omega
      have haddr : addr = pre.map some := by
        rw [← ht, hp32, ← ha, List.take_length]
      refine ⟨addr, ha, ?_⟩
      rw [scan_spaces line addr (c :: rest) pre.length 0 (by omega) (by omega)]
      have hd : line.drop ADDRSIZE = c :: rest := by
        rw [hl, ← hp32, List.drop_left]
      have htk : line.take ADDRSIZE = pre := by
        rw [hl, ← hp32, List.take_left]
      simp only [entryOf, fourthSpace, hd, htk, haddr, bytes_map_some, hp32]

theorem scan_line (line : List Char) (addr : List (Option Char))
    (ha : addr.length = ADDRSIZE) :
    ∃ addr2 : List (Option Char), addr2.length = ADDRSIZE ∧
      scan line line 0 0 addr = (entryOf line).map (fun e => (addr2, e)) := by
  have := scan_copy line line [] addr rfl (by simp) ha (by simp)
  simpa using this

theorem readLines_eq (lines : List (List Char)) :
    ∀ (addr : List (Option Char)) (ret : List (List Char)), addr.length = ADDRSIZE →
      readLines lines addr ret = foldEntries lines ret := by
  induction lines with
  | nil => intro addr ret _; rfl
  | cons l ls ih =>
    intro addr ret ha
    obtain ⟨addr2, h1, h2⟩ := scan_line l addr ha
    simp only [readLines, foldEntries, h2]
    cases entryOf l with
    | none => rfl
    | some e =>
      cases e with
      | none => simp [ih addr2 ret h1]
      | some a => simp [ih addr2 (ret ++ [a]) h1]

theorem parse_proc_eq (lines : List (List Char)) :
    parse_proc (some lines) =
      match foldEntries lines [] with
      | none => Outcome.undefined
      | some ret => if ret.length < MAXLEN then Outcome.ok ret else Outcome.undefined := by
  simp only [parse_proc]
  rw [readLines_eq lines _ [] (by simp)]

theorem parse_proc_single (line : List Char) :
    parse_proc (some [line]) =
      match entryOf line with
      | none => Outcome.undefined
      | some none => Outcome.ok []
      | some (some a) => Outcome.ok [a] := by
  rw [parse_proc_eq]
  simp only [foldEntries]
  cases entryOf line with
  | none => rfl
  | some e =>
    cases e with
    | none => simp [MAXLEN]
    | some a => simp [MAXLEN]

theorem foldEntries_filter (lines : List (List Char)) :
    ∀ ret : List (List Char),
      foldEntries (lines.filter fun l => (fourthSpace l).isSome) ret
        = foldEntries lines ret := by
  induction lines with
  | nil => intro ret; rfl
  | cons l ls ih =>
    intro ret
    cases h : fourthSpace l with
    | none =>
      have he : entryOf l = some none := by simp [entryOf, h]
      simp [List.filter, h, foldEntries, he, ih]
    | some j =>
      simp only [List.filter, h, Option.isSome_some, foldEntries]
      cases entryOf l with
      | none => rfl
      | some e =>
        cases e with
        | none => simp [ih]
        | some a => simp [ih]

/-! ## Addresses of hexadecimal digits -/

theorem isHexDigit_ne_nul (c : Char) (h : isHexDigit c = true) : c ≠ NUL := by
  intro hc
  subst hc
  revert h
  decide

theorem reduce_v6_of_hex (d : List Char) (hlen : d.length = 32)
    (hhex : ∀ c ∈ d, isHexDigit c = true) :
    reduce_v6 d = some (codeText (stripped d) (firstLongest (zeroFlags d))
      (longestRun (zeroFlags d))) :=
  reduce_v6_eq d hlen (fun c hc => isHexDigit_ne_nul c (hhex c hc))

set_option maxRecDepth 100000 in
theorem tieOk_boolLists : (boolLists 8).all tieOk = true := by decide

theorem tieOk_of_length (fs : List Bool) (h : fs.length = 8) : tieOk fs = true := by
  have h1 := mem_boolLists fs
  rw [h] at h1
  exact List.all_eq_true.1 tieOk_boolLists fs h1

theorem length_zeroFlags (d : List Char) (hlen : d.length = 32) :
    (zeroFlags d).length = 8 := by
  simp [zeroFlags, quartets_length d hlen]

theorem length_stripped (d : List Char) (hlen : d.length = 32) :
    (stripped d).length = 8 := by
  simp [stripped, quartets_length d hlen]

theorem reduce_v6_inner (d : List Char) (hlen : d.length = 32)
    (hhex : ∀ c ∈ d, isHexDigit c = true)
    (hrun : firstLongest (zeroFlags d) + longestRun (zeroFlags d) < 8) :
    reduce_v6 d = some
      (if 0 < longestRun (zeroFlags d) then
        elide (stripped d) (firstLongest (zeroFlags d)) (longestRun (zeroFlags d))
       else joinColon (stripped d)) := by
  rw [reduce_v6_of_hex d hlen hhex]
  have hl := length_stripped d hlen
  unfold codeText
  by_cases h0 : longestRun (zeroFlags d) = 0
  · simp [h0]
  · have hpos : 0 < longestRun (zeroFlags d) := Nat.pos_of_ne_zero h0
    simp [h0, hpos, hl, hrun]

/-! ## Expansion of the text of `reduce_v6` -/

theorem splitDouble_clean (X rest : List Char) (h : clean X = true) :
    splitDouble (X ++ ':' :: ':' :: rest) = some (X, rest) := by
  induction X with
  | nil => simp [splitDouble]
  | cons a X ih =>
    cases X with
    | nil =>
      have ha : a ≠ ':' := by simpa [clean] using h
      simp [splitDouble, ha]
    | cons b X =>
      simp only [clean, Bool.and_eq_true, Bool.not_eq_true', Bool.and_eq_false_imp,
        decide_eq_true_eq, decide_eq_false_iff_not] at h
      have := ih h.2
      simp only [List.cons_append] at this ⊢
      rw [splitDouble]
      simp only [this, Option.map_some']
      have hab : ¬ (a = ':' ∧ b = ':') := fun hc => h.1 hc.1 hc.2
      simp [hab]

theorem splitDouble_none (X : List Char) (h : clean X = true) : splitDouble X = none := by
  induction X with
  | nil => rfl
  | cons a X ih =>
    cases X with
    | nil => rfl
    | cons b X =>
      simp only [clean, Bool.and_eq_true, Bool.not_eq_true', Bool.and_eq_false_imp,
        decide_eq_true_eq, decide_eq_false_iff_not] at h
      have := ih h.2
      rw [splitDouble]
      have hab : ¬ (a = ':' ∧ b = ':') := fun hc => h.1 hc.1 hc.2
      simp [this, hab]

theorem clean_group (g : List Char) (hne : g ≠ []) (hcf : colonFree g = true) :
    clean g = true := by
  induction g with
  | nil => exact absurd rfl hne
  | cons a g ih =>
    have ha : a ≠ ':' := by
      have := List.all_eq_true.1 hcf a (by simp)
      simpa using this
    cases g with
    | nil => simp [clean, ha]
    | cons b g =>
      have h2 : colonFree (b :: g) = true := by
        simp only [colonFree, List.all_cons, Bool.and_eq_true] at hcf ⊢
        exact hcf.2
      simp [clean, ha, ih (by simp) h2]

theorem clean_append_group (g : List Char) (y : Char) (Y : List Char) (hne : g ≠ [])
    (hcf : colonFree g = true) (hy : y ≠ ':') (hY : clean (y :: Y) = true) :
    clean (g ++ ':' :: y :: Y) = true := by
  induction g with
  | nil => exact absurd rfl hne
  | cons a g ih =>
    have ha : a ≠ ':' := by
      have := List.all_eq_true.1 hcf a (by simp)
      simpa using this
    cases g with
    | nil => simp [clean, ha, hy, hY]
    | cons b g =>
      have h2 : colonFree (b :: g) = true := by
        simp only [colonFree, List.all_cons, Bool.and_eq_true] at hcf ⊢
        exact hcf.2
      have := ih (by simp) h2
      simp only [List.cons_append] at this ⊢
      simp [clean, ha, this]

theorem clean_joinColon (gs : List (List Char))
    (h : ∀ g ∈ gs, g ≠ [] ∧ colonFree g = true) : clean (joinColon gs) = true := by
  induction gs with
  | nil => rfl
  | cons g gs ih =>
    cases gs with
    | nil => exact clean_group g (h g (by simp)).1 (h g (by simp)).2
    | cons k gs =>
      have hk := h k (by simp)
      have ih2 := ih (fun x hx => h x (by simp [hx]))
      rw [joinColon_cons _ _ (by simp)]
      -- the text of the remaining groups starts with a character of `k`
      obtain ⟨y, Y, hY⟩ : ∃ y Y, joinColon (k :: gs) = y :: Y ∧ y ≠ ':' := by
        obtain ⟨y, k2, rfl⟩ := List.exists_cons_of_ne_nil hk.1
        have hy : y ≠ ':' := by
          have := List.all_eq_true.1 hk.2 y (by simp)
          simpa using this
        cases gs with
        | nil => exact ⟨y, k2, rfl, hy⟩
        | cons m gs => exact ⟨y, _, by rw [joinColon_cons _ _ (by simp)]; rfl, hy⟩
      rw [hY.1] at ih2 ⊢
      exact clean_append_group g y Y (h g (by simp)).1 (h g (by simp)).2 hY.2 ih2

theorem splitColon_group (g : List Char) (hcf : colonFree g = true) :
    splitColon g = [g] := by
  induction g with
  | nil => rfl
  | cons a g ih =>
    simp only [colonFree, List.all_cons, Bool.and_eq_true, decide_eq_true_eq] at hcf
    have := ih (by simpa [colonFree] using hcf.2)
    simp [splitColon, hcf.1, this]

theorem splitColon_append (g X : List Char) (hcf : colonFree g = true) :
    splitColon (g ++ ':' :: X) = g :: splitColon X := by
  induction g with
  | nil => simp [splitColon]
  | cons a g ih =>
    simp only [colonFree, List.all_cons, Bool.and_eq_true, decide_eq_true_eq] at hcf
    have := ih (by simpa [colonFree] using hcf.2)
    simp [splitColon, hcf.1, this]

theorem splitColon_joinColon (gs : List (List Char)) (hne : gs ≠ [])
    (h : ∀ g ∈ gs, colonFree g = true) : splitColon (joinColon gs) = gs := by
  induction gs with
  | nil => exact absurd rfl hne
  | cons g gs ih =>
    cases gs with
    | nil => simpa [joinColon] using splitColon_group g (h g (by simp))
    | cons k gs =>
      rw [joinColon_cons _ _ (by simp), splitColon_append g _ (h g (by simp)),
        ih (by simp) (fun x hx => h x (by simp [hx]))]

theorem groupsOf_joinColon (gs : List (List Char))
    (h : ∀ g ∈ gs, g ≠ [] ∧ colonFree g = true) : groupsOf (joinColon gs) = gs := by
  cases gs with
  | nil => rfl
  | cons g gs =>
    have hne : joinColon (g :: gs) ≠ [] := by
      obtain ⟨y, g2, rfl⟩ := List.exists_cons_of_ne_nil (h g (by simp)).1
      cases gs with
      | nil => simp [joinColon]
      | cons k gs => rw [joinColon_cons _ _ (by simp)]; simp
    simp only [groupsOf, hne, if_false]
    exact splitColon_joinColon _ (by simp) (fun x hx => (h x hx).2)

theorem isHexDigit_ne_colon (c : Char) (h : isHexDigit c = true) : c ≠ ':' := by
  intro hc
  subst hc
  revert h
  decide

theorem exists_quartet (q : List Char) (h : q.length = 4) : ∃ a b c e, q = [a, b, c, e] := by
  match q, h with
  | [a, b, c, e], _ => exact ⟨a, b, c, e, rfl⟩

theorem pad4_stripZeros (q : List Char) (h : q.length = 4) : pad4 (stripZeros q) = q := by
  obtain ⟨a, b, c, e, rfl⟩ := exists_quartet q h
  by_cases ha : a = '0' <;> by_cases hb : b = '0' <;> by_cases hc : c = '0' <;>
    by_cases he : e = '0' <;>
    simp [pad4, stripZeros, ha, hb, hc, he, List.replicate]

theorem stripZeros_ne_nil (g : List Char) : stripZeros g ≠ [] := by
  unfold stripZeros
  split
  · simp
  · assumption

theorem stripped_groups (d : List Char)
    (hhex : ∀ c ∈ d, isHexDigit c = true) :
    ∀ s ∈ stripped d, (s ≠ [] ∧ colonFree s = true) ∧ validGroup s = true := by
  intro s hs
  obtain ⟨q, hq, rfl⟩ := List.mem_map.1 hs
  have hq4 := quartets_length_four d q hq
  have hmem : ∀ x ∈ stripZeros q, isHexDigit x = true := by
    intro x hx
    rcases stripZeros_mem q x hx with h | h
    · exact hhex x (quartets_mem d q hq x h)
    · subst h; decide
  have hl := length_stripZeros_le q
  rw [hq4] at hl
  have hpos : 1 ≤ (stripZeros q).length :=
    List.length_pos.2 (stripZeros_ne_nil q)
  refine ⟨⟨stripZeros_ne_nil q, ?_⟩, ?_⟩
  · simp only [colonFree, List.all_eq_true, decide_eq_true_eq]
    exact fun x hx => isHexDigit_ne_colon x (hmem x hx)
  · simp only [validGroup, Bool.and_eq_true, decide_eq_true_eq, List.all_eq_true]
    exact ⟨⟨hpos, by simpa using hl⟩, hmem⟩

theorem flatten_quartets (d : List Char) (hlen : d.length = 32) :
    (quartets d).flatten = d := by
  obtain ⟨c0, c1, c2, c3, c4, c5, c6, c7, c8, c9, c10, c11, c12, c13, c14, c15, c16, c17,
    c18, c19, c20, c21, c22, c23, c24, c25, c26, c27, c28, c29, c30, c31, rfl⟩ :=
    exists_digits d hlen
  simp [quartets]

theorem map_pad4_strip (qs : List (List Char)) (h : ∀ q ∈ qs, q.length = 4) :
    (qs.map stripZeros).map pad4 = qs := by
  induction qs with
  | nil => rfl
  | cons q qs ih =>
    simp only [List.map_cons, pad4_stripZeros q (h q (by simp)),
      ih (fun x hx => h x (by simp [hx]))]

theorem zero_quartet (q : List Char) (h4 : q.length = 4) (hz : isZeroGroup q = true) :
    q = ['0', '0', '0', '0'] := by
  obtain ⟨a, b, c, e, rfl⟩ := exists_quartet q h4
  simp [isZeroGroup] at hz
  obtain ⟨rfl, rfl, rfl, rfl⟩ := hz
  rfl

theorem zero_run_flags (d : List Char) (hlen : d.length = 32)
    (hpos : 0 < longestRun (zeroFlags d)) :
    ((zeroFlags d).drop (firstLongest (zeroFlags d))).take (longestRun (zeroFlags d))
      = List.replicate (longestRun (zeroFlags d)) true := by
  have hok := trkOk_of_length (zeroFlags d) (length_zeroFlags d hlen)
  simp only [trkOk, Bool.and_eq_true, Bool.or_eq_true, beq_iff_eq] at hok
  rcases hok.2 with h | h
  · rw [hok.1] at h; omega
  · exact h.2

theorem zero_run_quartets (d : List Char) (hlen : d.length = 32)
    (hpos : 0 < longestRun (zeroFlags d)) :
    ((quartets d).drop (firstLongest (zeroFlags d))).take (longestRun (zeroFlags d))
      = List.replicate (longestRun (zeroFlags d)) ['0', '0', '0', '0'] := by
  have h := zero_run_flags d hlen hpos
  unfold zeroFlags at h ⊢
  generalize firstLongest (List.map isZeroGroup (quartets d)) = i at h ⊢
  generalize longestRun (List.map isZeroGroup (quartets d)) = L at h ⊢
  rw [← List.map_drop, ← List.map_take, List.eq_replicate_iff] at h
  rw [List.eq_replicate_iff]
  refine ⟨by simpa using h.1, ?_⟩
  intro q hq
  have hq2 : q ∈ quartets d := List.mem_of_mem_drop (List.mem_of_mem_take hq)
  exact zero_quartet q (quartets_length_four d q hq2) (h.2 _ (List.mem_map_of_mem _ hq))

theorem flatten_replicate_pad (n : Nat) :
    ((List.replicate n ['0']).map pad4).flatten
      = (List.replicate n ['0', '0', '0', '0']).flatten := by
  induction n with
  | zero => rfl
  | succ n ih =>
    simp only [List.replicate_succ, List.map_cons, List.flatten_cons, ih]
    rfl

/-- Where the first longest run of zero groups stops before the eighth group, the text
`reduce_v6` returns expands to the 32 digits it was given. -/
theorem expand_reduce_v6 (d : List Char) (hlen : d.length = 32)
    (hhex : ∀ c ∈ d, isHexDigit c = true)
    (hrun : firstLongest (zeroFlags d) + longestRun (zeroFlags d) < 8) :
    (reduce_v6 d).bind expand_v6 = some d := by
  rw [reduce_v6_inner d hlen hhex hrun, Option.some_bind]
  have hg := stripped_groups d hhex
  have hl := length_stripped d hlen
  have hq4 := quartets_length_four d
  have hfl := flatten_quartets d hlen
  by_cases hpos : 0 < longestRun (zeroFlags d)
  · have hzq := zero_run_quartets d hlen hpos
    rw [if_pos hpos]
    generalize firstLongest (zeroFlags d) = i at hrun hzq ⊢
    generalize longestRun (zeroFlags d) = L at hrun hzq hpos ⊢
    have hpre : ∀ g ∈ (stripped d).take i, g ≠ [] ∧ colonFree g = true :=
      fun g hgm => (hg g (List.mem_of_mem_take hgm)).1
    have hpost : ∀ g ∈ (stripped d).drop (i + L), g ≠ [] ∧ colonFree g = true :=
      fun g hgm => (hg g (List.mem_of_mem_drop hgm)).1
    have hvalid : ((stripped d).take i ++ (stripped d).drop (i + L)).all validGroup = true := by
      rw [List.all_eq_true]
      intro g hgm
      rcases List.mem_append.1 hgm with h | h
      · exact (hg g (List.mem_of_mem_take h)).2
      · exact (hg g (List.mem_of_mem_drop h)).2
    have hcount : ((stripped d).take i).length + ((stripped d).drop (i + L)).length = 8 - L := by
      simp only [List.length_take, List.length_drop, hl]
      omega
    unfold expand_v6 elide
    rw [splitDouble_clean _ _ (clean_joinColon _ hpre)]
    simp only [groupsOf_joinColon _ hpre, groupsOf_joinColon _ hpost, hvalid, hcount]
    have h7 : 8 - L ≤ 7 := by omega
    have h8 : 8 - (8 - L) = L := by omega
    simp only [h7, h8, true_and, if_true]
    congr 1
    have e1 : ((stripped d).take i).map pad4 = (quartets d).take i := by
      rw [stripped, ← List.map_take]
      exact map_pad4_strip _ (fun q hq => hq4 q (List.mem_of_mem_take hq))
    have e2 : ((stripped d).drop (i + L)).map pad4 = (quartets d).drop (i + L) := by
      rw [stripped, ← List.map_drop]
      exact map_pad4_strip _ (fun q hq => hq4 q (List.mem_of_mem_drop hq))
    rw [e1, e2, ← hzq, ← List.flatten_append, ← List.flatten_append]
    have e3 : (quartets d).take i ++ ((quartets d).drop i).take L
        ++ (quartets d).drop (i + L) = quartets d := by
      rw [List.append_assoc, ← List.drop_drop, List.take_append_drop,
        List.take_append_drop]
    rw [e3, hfl]
  · rw [if_neg hpos]
    have hall : ∀ g ∈ stripped d, g ≠ [] ∧ colonFree g = true := fun g hgm => (hg g hgm).1
    have hne : stripped d ≠ [] := by
      intro h
      rw [h] at hl
      simp at hl
    have hvalid : (stripped d).all validGroup = true := by
      rw [List.all_eq_true]
      exact fun g hgm => (hg g hgm).2
    unfold expand_v6
    rw [splitDouble_none _ (clean_joinColon _ hall)]
    simp only [splitColon_joinColon _ hne (fun g hgm => (hall g hgm).2), hl, hvalid,
      and_self, if_true]
    congr 1
    rw [stripped, map_pad4_strip _ hq4, hfl]

/-! ## Claims on `reduce_v6` -/

/-- C1 (defect of the code): the round trip holds for every address of 32 hexadecimal
digits whose first longest run of zero groups stops before the eighth group, but for the
address `2001:db8::` (a run of six zero groups that reaches the eighth group) `reduce_v6`
returns `2001:db8:::0:0:0:0:0`.  That text has an empty group between its colons, so it
is no compressed address and has no expansion; the text `2001:db8::`, which the
algorithm of the spec gives, expands to the input. -/
theorem reduce_v6_round_trip_defect :
    (∀ d : List Char, d.length = 32 → (∀ c ∈ d, isHexDigit c = true) →
      firstLongest (zeroFlags d) + longestRun (zeroFlags d) < 8 →
      (reduce_v6 d).bind expand_v6 = some d) ∧
      reduce_v6 "20010db8000000000000000000000000".toList
        = some "2001:db8:::0:0:0:0:0".toList ∧
      expand_v6 "2001:db8:::0:0:0:0:0".toList = none ∧
      expand_v6 "2001:db8::".toList = some "20010db8000000000000000000000000".toList :=
  ⟨expand_reduce_v6, by decide, by decide, by decide⟩

/-- Witness of the general part of C1 at `2001:db8::1`. -/
theorem reduce_v6_round_trip_defect_witness :
    ("20010db8000000000000000000000001".toList.length = 32 ∧
      (∀ c ∈ "20010db8000000000000000000000001".toList, isHexDigit c = true) ∧
      firstLongest (zeroFlags "20010db8000000000000000000000001".toList)
        + longestRun (zeroFlags "20010db8000000000000000000000001".toList) < 8) ∧
      (reduce_v6 "20010db8000000000000000000000001".toList).bind expand_v6
        = some "20010db8000000000000000000000001".toList :=
  ⟨⟨by decide, by decide, by decide⟩,
    reduce_v6_round_trip_defect.1 "20010db8000000000000000000000001".toList (by decide)
      (by decide) (by decide)⟩

/-- C2 (defect of the code): on `2001::` (seven zero groups up to the eighth group) and
on the all-zero address `reduce_v6` differs from the two-pass reference, which returns
`2001::` and `::`. -/
theorem reduce_v6_differs_from_twoPass :
    reduce_v6 "20010000000000000000000000000000".toList = some "2001:::0:0:0:0:0:0".toList ∧
      twoPass "20010000000000000000000000000000".toList = "2001::".toList ∧
      reduce_v6 "00000000000000000000000000000000".toList = some "::0:0:0:0:0:0:0".toList ∧
      twoPass "00000000000000000000000000000000".toList = "::".toList := by
  decide

/-- C3 (defect of the code): for `fe80::` the elided run ends at the eighth group
(it starts at group 1 and has 7 groups), and the text `reduce_v6` returns,
`fe80:::0:0:0:0:0:0`, contains `:::` and does not end with `::`. -/
theorem reduce_v6_triple_colon :
    firstLongest (zeroFlags "fe800000000000000000000000000000".toList) = 1 ∧
      longestRun (zeroFlags "fe800000000000000000000000000000".toList) = 7 ∧
      reduce_v6 "fe800000000000000000000000000000".toList = some "fe80:::0:0:0:0:0:0".toList ∧
      hasTripleColon "fe80:::0:0:0:0:0:0".toList = true ∧
      endsWithDoubleColon "fe80:::0:0:0:0:0:0".toList = false := by
  decide

/-- C4: for every address of 32 hexadecimal digits whose first longest run of zero groups
does not include the eighth group, `reduce_v6` returns the stripped groups joined by `:`
with exactly that run replaced by `::` (and nothing replaced when there is no zero
group); the three documented vectors give `::1`, `2001:db8::1` and `fe80::1`. -/
theorem reduce_v6_inner_run :
    (∀ d : List Char, d.length = 32 → (∀ c ∈ d, isHexDigit c = true) →
      firstLongest (zeroFlags d) + longestRun (zeroFlags d) < 8 →
      reduce_v6 d = some
        (if 0 < longestRun (zeroFlags d) then
          elide (stripped d) (firstLongest (zeroFlags d)) (longestRun (zeroFlags d))
         else joinColon (stripped d))) ∧
      reduce_v6 "00000000000000000000000000000001".toList = some "::1".toList ∧
      reduce_v6 "20010db8000000000000000000000001".toList = some "2001:db8::1".toList ∧
      reduce_v6 "fe800000000000000000000000000001".toList = some "fe80::1".toList := by
  exact ⟨reduce_v6_inner, by decide, by decide, by decide⟩

/-- Witness of C4 at the loopback address: its run of seven zero groups starts at the
first group and stops before the eighth. -/
theorem reduce_v6_inner_run_witness :
    ("00000000000000000000000000000001".toList.length = 32 ∧
      (∀ c ∈ "00000000000000000000000000000001".toList, isHexDigit c = true) ∧
      firstLongest (zeroFlags "00000000000000000000000000000001".toList)
        + longestRun (zeroFlags "00000000000000000000000000000001".toList) < 8) ∧
      reduce_v6 "00000000000000000000000000000001".toList = some
        (if 0 < longestRun (zeroFlags "00000000000000000000000000000001".toList) then
          elide (stripped "00000000000000000000000000000001".toList)
            (firstLongest (zeroFlags "00000000000000000000000000000001".toList))
            (longestRun (zeroFlags "00000000000000000000000000000001".toList))
         else joinColon (stripped "00000000000000000000000000000001".toList)) :=
  ⟨⟨by decide, by decide, by decide⟩,
    reduce_v6_inner_run.1 "00000000000000000000000000000001".toList (by decide) (by decide)
      (by decide)⟩

/-- C5: when a run of zero groups that starts after the first longest run has the same
(maximal, non-zero) length, `reduce_v6` replaces the earliest run of that length with
`::`: the groups before it and after it are kept, stripped and joined by `:`, so every
zero group of the later runs is rendered as `0`. -/
theorem reduce_v6_first_wins (d : List Char) (hlen : d.length = 32)
    (hhex : ∀ c ∈ d, isHexDigit c = true) (j : Nat)
    (hj : firstLongest (zeroFlags d) < j)
    (hrun : zeroRunFrom (zeroFlags d) j = longestRun (zeroFlags d))
    (hpos : 0 < longestRun (zeroFlags d)) :
    reduce_v6 d = some
        (elide (stripped d) (firstLongest (zeroFlags d)) (longestRun (zeroFlags d))) ∧
      zeroRunFrom (zeroFlags d) (firstLongest (zeroFlags d)) = longestRun (zeroFlags d) ∧
      (∀ k, k < firstLongest (zeroFlags d) →
        zeroRunFrom (zeroFlags d) k < longestRun (zeroFlags d)) ∧
      (∀ k, firstLongest (zeroFlags d) + longestRun (zeroFlags d) ≤ k →
        (zeroFlags d)[k]? = some true → (stripped d)[k]? = some ['0']) := by
  have hl := length_zeroFlags d hlen
  have hok := tieOk_of_length (zeroFlags d) hl
  simp only [tieOk, Bool.and_eq_true, decide_eq_true_eq, List.all_eq_true, List.mem_range,
    Bool.or_eq_true, Bool.not_eq_true', Bool.and_eq_false_imp, decide_eq_false_iff_not] at hok
  obtain ⟨⟨h1, h2⟩, h3⟩ := hok
  have hj8 : j < (zeroFlags d).length := by
    by_contra hge
    have : zeroRunFrom (zeroFlags d) j = 0 := by
      unfold zeroRunFrom
      rw [List.drop_of_length_le (by omega)]
      rfl
    omega
  have hin : firstLongest (zeroFlags d) + longestRun (zeroFlags d) < 8 := by
    have := h3 j hj8
    rw [hl] at this
    rcases this with h | h
    · exact absurd hpos (h ⟨hj, hrun⟩)
    · exact h
  refine ⟨?_, h1, h2, ?_⟩
  · have := reduce_v6_inner d hlen hhex hin
    rw [this, if_pos hpos]
  · intro k _ hk
    simp only [zeroFlags, stripped, List.getElem?_map] at hk ⊢
    cases hq : (quartets d)[k]? with
    | none => simp [hq] at hk
    | some q =>
      simp only [hq, Option.map_some', Option.some.injEq] at hk ⊢
      exact stripZeros_of_isZeroGroup q hk

/-- Witness of C5: `2001:0:0:1:0:0:1:1` has the runs of zero groups 1-2 and 4-5. -/
theorem reduce_v6_first_wins_witness :
    (firstLongest (zeroFlags "20010000000000010000000000010001".toList) < 4 ∧
      zeroRunFrom (zeroFlags "20010000000000010000000000010001".toList) 4
        = longestRun (zeroFlags "20010000000000010000000000010001".toList)) ∧
      reduce_v6 "20010000000000010000000000010001".toList = some "2001::1:0:0:1:1".toList :=
  ⟨⟨by decide, by decide⟩,
    (reduce_v6_first_wins "20010000000000010000000000010001".toList (by decide) (by decide) 4
      (by decide) (by decide) (by decide)).1.trans (by decide)⟩

/-- C6 as stated fails: for `20010000000000010000000000000001` the text returned is not
`2001::1:0:0:0:1`. -/
theorem reduce_v6_tie_vector_not_first :
    reduce_v6 "20010000000000010000000000000001".toList ≠ some "2001::1:0:0:0:1".toList := by
  decide

/-- C6, amended: the zero runs of `20010000000000010000000000000001` have 2 groups (from
group 1) and 3 groups (from group 4); `reduce_v6` elides the longer one, which is the
later one, and returns `2001:0:0:1::1`. -/
theorem reduce_v6_tie_vector :
    zeroRunFrom (zeroFlags "20010000000000010000000000000001".toList) 1 = 2 ∧
      zeroRunFrom (zeroFlags "20010000000000010000000000000001".toList) 4 = 3 ∧
      firstLongest (zeroFlags "20010000000000010000000000000001".toList) = 4 ∧
      longestRun (zeroFlags "20010000000000010000000000000001".toList) = 3 ∧
      reduce_v6 "20010000000000010000000000000001".toList = some "2001:0:0:1::1".toList := by
  decide

/-! ## Claims on `parse_proc` -/

theorem isspace_of_hex (c : Char) (h : isHexDigit c = true) : isspace c = false := by
  have key : hexDigits.all (fun x => !isspace x) = true := by decide
  have hmem : c ∈ hexDigits := by
    simpa [isHexDigit] using h
  have := List.all_eq_true.1 key c hmem
  simpa using this

theorem exists_reduce_v6 (a : List Char) (hlen : a.length = 32)
    (hhex : ∀ c ∈ a, isHexDigit c = true) : ∃ out, reduce_v6 a = some out :=
  ⟨_, reduce_v6_of_hex a hlen hhex⟩

theorem entryOf_fourth (a rest : List Char) (i : Nat) (f : Char) (hlen : a.length = 32)
    (h4 : fourthSpace (a ++ rest) = some i) (hf : lineAt (a ++ rest) (i + 2) = some f) :
    entryOf (a ++ rest) = if f = '1' then (reduce_v6 a).map some else some none := by
  have htk : (a ++ rest).take ADDRSIZE = a := by
    rw [show ADDRSIZE = a.length from hlen.symm, List.take_left]
  simp only [entryOf, h4, flagEntry, hf, htk, Option.some_bind]
  by_cases h1 : f = '1' <;> simp [h1]

/-- C7: for a line in the format of the kernel table (32 hexadecimal digits, then the
two-digit fields ifindex, prefix length, scope and flags, each preceded by one space, then
anything) the table built from that one line holds exactly the compressed address when
the second digit of the flags field is `1`, and is empty otherwise.  Nothing is asked of
the two characters of the flags field. -/
theorem parse_proc_kernel_line (a : List Char) (i1 i2 p1 p2 s1 s2 f1 f2 : Char)
    (tail : List Char) (hlen : a.length = 32) (hhex : ∀ c ∈ a, isHexDigit c = true)
    (hi1 : isHexDigit i1 = true) (hi2 : isHexDigit i2 = true)
    (hp1 : isHexDigit p1 = true) (hp2 : isHexDigit p2 = true)
    (hs1 : isHexDigit s1 = true) (hs2 : isHexDigit s2 = true) :
    ∃ out, reduce_v6 a = some out ∧
      parse_proc (some [a ++ ' ' :: i1 :: i2 :: ' ' :: p1 :: p2 :: ' ' :: s1 :: s2 :: ' ' ::
          f1 :: f2 :: tail])
        = Outcome.ok (if f2 = '1' then [out] else []) := by
  obtain ⟨out, hout⟩ := exists_reduce_v6 a hlen hhex
  refine ⟨out, hout, ?_⟩
  have hsp : isspace ' ' = true := by decide
  have h4 : fourthSpace (a ++ ' ' :: i1 :: i2 :: ' ' :: p1 :: p2 :: ' ' :: s1 :: s2 :: ' ' ::
      f1 :: f2 :: tail) = some 41 := by
    unfold fourthSpace
    rw [show ADDRSIZE = a.length from hlen.symm, List.drop_left]
    simp [nthSpace, hsp, isspace_of_hex, hi1, hi2, hp1, hp2, hs1, hs2, hlen]
  have hf : lineAt (a ++ ' ' :: i1 :: i2 :: ' ' :: p1 :: p2 :: ' ' :: s1 :: s2 :: ' ' ::
      f1 :: f2 :: tail) (41 + 2) = some f2 := by
    unfold lineAt
    rw [List.append_assoc, List.getElem?_append_right (by omega)]
    simp [hlen]
  rw [parse_proc_single, entryOf_fourth _ _ 41 f2 hlen h4 hf, hout]
  by_cases h1 : f2 = '1' <;> simp [h1]

/-- Witness of C7: a link-local address with flags `01`. -/
theorem parse_proc_kernel_line_witness :
    ("fe800000000000000000000000000001".toList.length = 32 ∧
      (∀ c ∈ "fe800000000000000000000000000001".toList, isHexDigit c = true)) ∧
      ∃ out, reduce_v6 "fe800000000000000000000000000001".toList = some out ∧
        parse_proc (some ["fe800000000000000000000000000001".toList ++ ' ' :: '0' :: '2' ::
            ' ' :: '4' :: '0' :: ' ' :: '2' :: '0' :: ' ' :: '0' :: '1' ::
            "     eth0\n".toList])
          = Outcome.ok (if '1' = '1' then [out] else []) :=
  ⟨⟨by decide, by decide⟩,
    parse_proc_kernel_line "fe800000000000000000000000000001".toList '0' '2' '4' '0' '2' '0'
      '0' '1' "     eth0\n".toList (by decide) (by decide) (by decide) (by decide) (by decide)
      (by decide) (by decide) (by decide)⟩

/-- C8 as stated fails: with two spaces after the address the flags token, the fourth
token after the address, is `01`, yet nothing is inserted; with one space the address is
inserted. -/
theorem parse_proc_counts_characters :
    (tokens "fe800000000000000000000000000001  02 40 20 01 eth0\n".toList)[4]?
        = some "01".toList ∧
      parse_proc (some ["fe800000000000000000000000000001  02 40 20 01 eth0\n".toList])
        = Outcome.ok [] ∧
      parse_proc (some ["fe800000000000000000000000000001 02 40 20 01 eth0\n".toList])
        = Outcome.ok ["fe80::1".toList] := by
  decide

/-- C8, amended: for every line that starts with 32 hexadecimal digits, if the fourth
whitespace character after them is at index `i` and the character at index `i + 2` is
`f`, the compressed address is inserted iff `f` is `1`.  Every whitespace character
counts, so a run of several of them moves the inspected position. -/
theorem parse_proc_fourth_space (a rest : List Char) (i : Nat) (f : Char)
    (hlen : a.length = 32) (hhex : ∀ c ∈ a, isHexDigit c = true)
    (h4 : fourthSpace (a ++ rest) = some i) (hf : lineAt (a ++ rest) (i + 2) = some f) :
    ∃ out, reduce_v6 a = some out ∧
      parse_proc (some [a ++ rest]) = Outcome.ok (if f = '1' then [out] else []) := by
  obtain ⟨out, hout⟩ := exists_reduce_v6 a hlen hhex
  refine ⟨out, hout, ?_⟩
  rw [parse_proc_single, entryOf_fourth a rest i f hlen h4 hf, hout]
  by_cases h1 : f = '1' <;> simp [h1]

/-- Witness of C8, amended: with two spaces after the address the fourth whitespace
character is at index 39 and the character inspected, at index 41, is the `0` of the
scope field. -/
theorem parse_proc_fourth_space_witness :
    (fourthSpace ("fe800000000000000000000000000001".toList ++ "  02 40 20 01 eth0\n".toList)
        = some 39 ∧
      lineAt ("fe800000000000000000000000000001".toList ++ "  02 40 20 01 eth0\n".toList)
        (39 + 2) = some '0') ∧
      ∃ out, reduce_v6 "fe800000000000000000000000000001".toList = some out ∧
        parse_proc (some ["fe800000000000000000000000000001".toList
            ++ "  02 40 20 01 eth0\n".toList])
          = Outcome.ok (if '0' = '1' then [out] else []) :=
  ⟨⟨by decide, by decide⟩,
    parse_proc_fourth_space "fe800000000000000000000000000001".toList
      "  02 40 20 01 eth0\n".toList 39 '0' (by decide) (by decide) (by decide) (by decide)⟩

/-- C9 as stated fails: a line whose first 32 characters are not all hexadecimal digits
is malformed in the words of the spec, yet it adds an entry, so the table differs from
the one built without it. -/
theorem parse_proc_keeps_non_hex_line :
    malformed "fe80000000000000000000000000000g 02 40 20 01 eth0\n".toList = true ∧
      parse_proc (some ["fe80000000000000000000000000000g 02 40 20 01 eth0\n".toList])
        = Outcome.ok ["fe80::g".toList] ∧
      parse_proc (some (["fe80000000000000000000000000000g 02 40 20 01 eth0\n".toList].filter
        fun l => !malformed l)) = Outcome.ok [] := by
  decide

/-- C9, amended: a line without a fourth whitespace character after its first 32
characters (so every line of at most 32 characters) adds no entry, and the table built
from a sequence of lines is the table built from the sequence without such lines.  The
first 32 characters are not checked to be hexadecimal digits. -/
theorem parse_proc_skips_short_lines :
    (∀ l : List Char, fourthSpace l = none → parse_proc (some [l]) = Outcome.ok []) ∧
      (∀ l : List Char, l.length ≤ 32 → fourthSpace l = none) ∧
      (∀ lines : List (List Char),
        parse_proc (some (lines.filter fun l => (fourthSpace l).isSome))
          = parse_proc (some lines)) := by
  refine ⟨?_, ?_, ?_⟩
  · intro l h
    rw [parse_proc_single]
    simp [entryOf, h]
  · intro l h
    unfold fourthSpace
    rw [List.drop_of_length_le (by simpa [ADDRSIZE] using h)]
    rfl
  · intro lines
    rw [parse_proc_eq, parse_proc_eq, foldEntries_filter]

/-- Witness of C9, amended: a line of 8 characters. -/
theorem parse_proc_skips_short_lines_witness :
    (fourthSpace "fe80 02\n".toList = none ∧ "fe80 02\n".toList.length ≤ 32) ∧
      parse_proc (some ["fe80 02\n".toList]) = Outcome.ok [] :=
  ⟨⟨by decide, by decide⟩, parse_proc_skips_short_lines.1 "fe80 02\n".toList (by decide)⟩

/-! ## Claims on the filter -/

theorem containsAddr_iff (needle : List Char) (haystack : List (List Char)) :
    containsAddr needle haystack = true ↔ needle ∈ haystack := by
  induction haystack with
  | nil => simp [containsAddr]
  | cons h t ih =>
    by_cases hn : needle = h
    · simp [containsAddr, hn]
    · simp [containsAddr, hn, ih]

/-- C10: when `NTMP` (exclude temporary) is set in the option word and the textual
address is in the temporary table, the record is not printed, whatever the other bits,
the family and the address are. -/
theorem printed_exclude_temporary (flags : Nat) (family : Family) (host : List Char)
    (tmps : List (List Char)) (hflag : flags &&& NTMP ≠ 0) (hmem : host ∈ tmps) :
    printed flags family host tmps = false := by
  have := (containsAddr_iff host tmps).2 hmem
  simp [printed, hflag, this]

/-- Witness of C10: all seven bits set, an address that is global and temporary. -/
theorem printed_exclude_temporary_witness :
    (127 &&& NTMP ≠ 0 ∧ "2001:db8::1".toList ∈ ["fe80::1".toList, "2001:db8::1".toList]) ∧
      printed 127 Family.inet6 "2001:db8::1".toList
        ["fe80::1".toList, "2001:db8::1".toList] = false :=
  ⟨⟨by decide, by decide⟩,
    printed_exclude_temporary 127 Family.inet6 "2001:db8::1".toList
      ["fe80::1".toList, "2001:db8::1".toList] (by decide) (by decide)⟩

/-! ## Claims on `parse_flags` -/

theorem flagWord_addFlag (c : CriteriaSet) (ch : Char) (b : Nat) (h : flagBit ch = some b) :
    flagWord c ||| b = flagWord (addFlag c ch) := by
  unfold flagBit at h
  rcases c with ⟨c4, c6, cg, cl, cu, ct, cT⟩
  split at h
  · cases h; subst_vars
    cases c4 <;> cases c6 <;> cases cg <;> cases cl <;> cases cu <;> cases ct <;> cases cT <;>
      decide
  split at h
  · cases h; subst_vars
    cases c4 <;> cases c6 <;> cases cg <;> cases cl <;> cases cu <;> cases ct <;> cases cT <;>
      decide
  split at h
  · cases h; subst_vars
    cases c4 <;> cases c6 <;> cases cg <;> cases cl <;> cases cu <;> cases ct <;> cases cT <;>
      decide
  split at h
  · cases h; subst_vars
    cases c4 <;> cases c6 <;> cases cg <;> cases cl <;> cases cu <;> cases ct <;> cases cT <;>
      decide
  split at h
  · cases h; subst_vars
    cases c4 <;> cases c6 <;> cases cg <;> cases cl <;> cases cu <;> cases ct <;> cases cT <;>
      decide
  split at h
  · cases h; subst_vars
    cases c4 <;> cases c6 <;> cases cg <;> cases cl <;> cases cu <;> cases ct <;> cases cT <;>
      decide
  split at h
  · cases h; subst_vars
    cases c4 <;> cases c6 <;> cases cg <;> cases cl <;> cases cu <;> cases ct <;> cases cT <;>
      decide
  · cases h

theorem foldl_addFlag (cs : List Char) (c : CriteriaSet) :
    cs.foldl addFlag c =
      ⟨c.wantIPv4 || cs.contains '4', c.wantIPv6 || cs.contains '6',
        c.wantGUA || cs.contains 'g', c.wantLinkLocal || cs.contains 'l',
        c.wantULA || cs.contains 'u', c.wantTemporaryOnly || cs.contains 't',
        c.wantExcludeTemporary || cs.contains 'T'⟩ := by
  induction cs generalizing c with
  | nil => simp
  | cons x cs ih =>
    rw [List.foldl_cons, ih]
    simp only [addFlag, List.contains_cons, Bool.or_assoc, CriteriaSet.mk.injEq]
    have e : ∀ y : Char, (y == x) = decide (x = y) := by
      intro y
      by_cases hxy : x = y
      · simp [hxy]
      · have : ¬ y = x := fun h => hxy h.symm
        simp [hxy, this]
    simp [e]

theorem criteriaOf_eq_foldl (cs : List Char) :
    criteriaOf cs = cs.foldl addFlag ⟨false, false, false, false, false, false, false⟩ := by
  rw [foldl_addFlag]
  simp [criteriaOf]

theorem parse_chars_eq (cs : List Char) :
    ∀ c : CriteriaSet, parse_chars cs (flagWord c) =
      if ∀ ch ∈ cs, flagBit ch ≠ none then some (flagWord (cs.foldl addFlag c)) else none := by
  induction cs with
  | nil => intro c; simp [parse_chars]
  | cons x cs ih =>
    intro c
    cases hx : flagBit x with
    | none =>
      have : ¬ ∀ ch ∈ x :: cs, flagBit ch ≠ none := fun h => h x (by simp) hx
      simp [parse_chars, hx]
    | some b =>
      simp only [parse_chars, hx, flagWord_addFlag c x b hx, ih, List.foldl_cons]
      by_cases hall : ∀ ch ∈ cs, flagBit ch ≠ none
      · have : ∀ ch ∈ x :: cs, flagBit ch ≠ none := by
          intro ch hch
          rcases List.mem_cons.1 hch with rfl | hch
          · simp [hx]
          · exact hall ch hch
        simp [hall, this]
      · have : ¬ ∀ ch ∈ x :: cs, flagBit ch ≠ none :=
          fun h => hall (fun ch hch => h ch (List.mem_cons_of_mem _ hch))
        simp [hall, this]

theorem dashChars_cons (arg : List Char) (args : List (List Char)) :
    dashChars (arg :: args) =
      if arg.head? = some '-' then arg.tail ++ dashChars args else dashChars args := by
  unfold dashChars
  by_cases h : arg.head? = some '-' <;> simp [List.filter, h]

theorem parse_args_eq (args : List (List Char)) :
    ∀ (c : CriteriaSet) (name : List Char),
      (¬ (∀ ch ∈ dashChars args, flagBit ch ≠ none) →
        parse_args args ⟨flagWord c, name⟩ = Outcome.exitFailure) ∧
      ((∀ ch ∈ dashChars args, flagBit ch ≠ none) →
        ∃ name2, parse_args args ⟨flagWord c, name⟩
          = Outcome.ok ⟨flagWord ((dashChars args).foldl addFlag c), name2⟩) := by
  induction args with
  | nil =>
    intro c name
    simp [parse_args, dashChars]
  | cons arg args ih =>
    intro c name
    rw [dashChars_cons]
    by_cases hd : arg.head? = some '-'
    · have hpc := parse_chars_eq arg.tail c
      by_cases hall : ∀ ch ∈ arg.tail, flagBit ch ≠ none
      · rw [if_pos hall] at hpc
        simp only [hd, if_true, parse_args, hpc, List.foldl_append]
        obtain ⟨h1, h2⟩ := ih (arg.tail.foldl addFlag c) name
        constructor
        · intro hbad
          apply h1
          intro hrest
          apply hbad
          intro ch hch
          rcases List.mem_append.1 hch with hch | hch
          · exact hall ch hch
          · exact hrest ch hch
        · intro hgood
          exact h2 (fun ch hch => hgood ch (List.mem_append_right _ hch))
      · rw [if_neg hall] at hpc
        simp only [hd, if_true, parse_args, hpc]
        constructor
        · intro _; trivial
        · intro hgood
          exact absurd (fun ch hch => hgood ch (List.mem_append_left _ hch)) hall
    · simp only [hd, if_false, parse_args]
      exact ih c (arg.take 255)

theorem flagBit_eq_none (ch : Char) :
    flagBit ch = none ↔ ch ∉ ['4', '6', 'g', 'l', 't', 'T', 'u'] := by
  unfold flagBit
  by_cases h4 : ch = '4' <;> by_cases h6 : ch = '6' <;> by_cases hg : ch = 'g' <;>
    by_cases hl : ch = 'l' <;> by_cases ht : ch = 't' <;> by_cases hT : ch = 'T' <;>
    by_cases hu : ch = 'u' <;> simp [h4, h6, hg, hl, ht, hT, hu]

theorem mem_dashChars (args : List (List Char)) (ch : Char) :
    ch ∈ dashChars args ↔ ∃ arg ∈ args, arg.head? = some '-' ∧ ch ∈ arg.tail := by
  simp only [dashChars, List.mem_flatten, List.mem_map, List.mem_filter, decide_eq_true_eq]
  constructor
  · rintro ⟨l, ⟨arg, ⟨h1, h2⟩, rfl⟩, h3⟩
    exact ⟨arg, h1, h2, h3⟩
  · rintro ⟨arg, h1, h2, h3⟩
    exact ⟨arg.tail, ⟨arg, ⟨h1, h2⟩, rfl⟩, h3⟩

theorem parse_flags_eq (argv : List (List Char)) :
    (¬ (∀ ch ∈ flagChars argv, flagBit ch ≠ none) → parse_flags argv = Outcome.exitFailure) ∧
      ((∀ ch ∈ flagChars argv, flagBit ch ≠ none) →
        ∃ name, parse_flags argv = Outcome.ok ⟨flagWord (criteriaOf (flagChars argv)), name⟩) := by
  have e0 : flagWord ⟨false, false, false, false, false, false, false⟩ = 0 := by decide
  have hfc : flagChars argv = dashChars (argv.drop 1) := rfl
  unfold parse_flags
  by_cases hlen : argv.length < 2
  · have hd : argv.drop 1 = [] := by
      apply List.drop_of_length_le; omega
    have hcs : flagChars argv = [] := by rw [hfc, hd]; rfl
    simp only [hlen, if_true, hcs]
    constructor
    · intro h; exact absurd (by simp) h
    · intro _
      exact ⟨[], by rw [show criteriaOf [] = ⟨false, false, false, false, false, false, false⟩
        from rfl, e0]⟩
  · simp only [hlen, if_false]
    have := parse_args_eq (argv.drop 1) ⟨false, false, false, false, false, false, false⟩ []
    rw [e0, ← hfc, ← criteriaOf_eq_foldl] at this
    exact this

/-- C15: `parse_flags` ends with the usage error exactly when an argument after the
first that begins with `-` has, after the dash, a character outside `4 6 g l t T u`;
otherwise it returns the option word of the set of option characters that occur, which
is the bitwise or of their bits (so their order, grouping and repetition do not
matter). -/
theorem parse_flags_usage_or_word (argv : List (List Char)) :
    (parse_flags argv = Outcome.exitFailure ↔
        ∃ arg ∈ argv.drop 1, arg.head? = some '-' ∧
          ∃ ch ∈ arg.tail, ch ∉ ['4', '6', 'g', 'l', 't', 'T', 'u']) ∧
      ((¬ ∃ arg ∈ argv.drop 1, arg.head? = some '-' ∧
          ∃ ch ∈ arg.tail, ch ∉ ['4', '6', 'g', 'l', 't', 'T', 'u']) →
        ∃ name, parse_flags argv = Outcome.ok ⟨flagWord (criteriaOf (flagChars argv)), name⟩ ∧
          flagWord (criteriaOf (flagChars argv))
            = (flagChars argv).foldl (fun w ch => w ||| (flagBit ch).getD 0) 0) := by
  have hbad : (∃ arg ∈ argv.drop 1, arg.head? = some '-' ∧
      ∃ ch ∈ arg.tail, ch ∉ ['4', '6', 'g', 'l', 't', 'T', 'u'])
      ↔ ¬ ∀ ch ∈ flagChars argv, flagBit ch ≠ none := by
    have hfc : flagChars argv = dashChars (argv.drop 1) := rfl
    rw [hfc]
    constructor
    · rintro ⟨arg, h1, h2, ch, h3, h4⟩ hall
      exact hall ch ((mem_dashChars _ ch).2 ⟨arg, h1, h2, h3⟩) ((flagBit_eq_none ch).2 h4)
    · intro h
      simp only [not_forall, not_not] at h
      obtain ⟨ch, hch, hnone⟩ := h
      obtain ⟨arg, h1, h2, h3⟩ := (mem_dashChars _ ch).1 hch
      exact ⟨arg, h1, h2, ch, h3, (flagBit_eq_none ch).1 hnone⟩
  obtain ⟨h1, h2⟩ := parse_flags_eq argv
  refine ⟨⟨?_, ?_⟩, ?_⟩
  · intro hex
    by_contra hno
    have hgood : ∀ ch ∈ flagChars argv, flagBit ch ≠ none := by
      by_contra hb
      exact hno (hbad.2 hb)
    obtain ⟨name, hn⟩ := h2 hgood
    rw [hn] at hex
    cases hex
  · intro hex
    exact h1 (hbad.1 hex)
  · intro hno
    have hgood : ∀ ch ∈ flagChars argv, flagBit ch ≠ none := by
      by_contra hb
      exact hno (hbad.2 hb)
    obtain ⟨name, hn⟩ := h2 hgood
    refine ⟨name, hn, ?_⟩
    rw [criteriaOf_eq_foldl]
    have key : ∀ (cs : List Char) (c : CriteriaSet), (∀ ch ∈ cs, flagBit ch ≠ none) →
        flagWord (cs.foldl addFlag c)
          = cs.foldl (fun w ch => w ||| (flagBit ch).getD 0) (flagWord c) := by
      intro cs
      induction cs with
      | nil => intro c _; rfl
      | cons x cs ih =>
        intro c hall
        cases hx : flagBit x with
        | none => exact absurd hx (hall x (by simp))
        | some b =>
          rw [List.foldl_cons, List.foldl_cons, ih _ (fun ch hch => hall ch (by simp [hch])),
            ← flagWord_addFlag c x b hx, hx]
          rfl
    have := key (flagChars argv) ⟨false, false, false, false, false, false, false⟩ hgood
    rw [this]
    rfl

/-- Witness of C15: `showip -46 eth0 -gT6` gives the word of `4 6 g T`, 71. -/
theorem parse_flags_usage_or_word_witness :
    (¬ ∃ arg ∈ ["showip".toList, "-46".toList, "eth0".toList, "-gT6".toList].drop 1,
        arg.head? = some '-' ∧ ∃ ch ∈ arg.tail, ch ∉ ['4', '6', 'g', 'l', 't', 'T', 'u']) ∧
      ∃ name, parse_flags ["showip".toList, "-46".toList, "eth0".toList, "-gT6".toList]
          = Outcome.ok ⟨flagWord (criteriaOf (flagChars
              ["showip".toList, "-46".toList, "eth0".toList, "-gT6".toList])), name⟩ ∧
        flagWord (criteriaOf (flagChars
            ["showip".toList, "-46".toList, "eth0".toList, "-gT6".toList]))
          = (flagChars ["showip".toList, "-46".toList, "eth0".toList, "-gT6".toList]).foldl
              (fun w ch => w ||| (flagBit ch).getD 0) 0 :=
  ⟨by decide,
    (parse_flags_usage_or_word
      ["showip".toList, "-46".toList, "eth0".toList, "-gT6".toList]).2 (by decide)⟩

/-! ## Claims on the inclusion decision -/

theorem flagWord_tests (c : CriteriaSet) :
    (flagWord c = 0 ↔ noCriterion c = true) ∧
      (flagWord c = NTMP ↔ onlyExcludeTemporary c = true) ∧
      (flagWord c &&& IPV4 ≠ 0 ↔ c.wantIPv4 = true) ∧
      (flagWord c &&& IPV6 ≠ 0 ↔ c.wantIPv6 = true) ∧
      (flagWord c &&& GUA6 ≠ 0 ↔ c.wantGUA = true) ∧
      (flagWord c &&& LLv6 ≠ 0 ↔ c.wantLinkLocal = true) ∧
      (flagWord c &&& ULA6 ≠ 0 ↔ c.wantULA = true) ∧
      (flagWord c &&& TMP6 ≠ 0 ↔ c.wantTemporaryOnly = true) ∧
      (flagWord c &&& NTMP ≠ 0 ↔ c.wantExcludeTemporary = true) := by
  rcases c with ⟨c4, c6, cg, cl, cu, ct, cT⟩
  cases c4 <;> cases c6 <;> cases cg <;> cases cl <;> cases cu <;> cases ct <;> cases cT <;>
    decide

/-- The condition of `print_filtered` names the clause on `IPV6` twice (lines 243 and
247); the second occurrence adds nothing. -/
theorem or_repeated (A B C D E F G H : Prop) :
    (A ∨ B ∨ C ∨ D ∨ E ∨ F ∨ G ∨ D ∨ H) ↔ (A ∨ B ∨ C ∨ D ∨ E ∨ F ∨ G ∨ H) := by
  tauto

/-- C11: when the exclusion of temporary addresses does not apply (the switch is off or
the address is not in the table), the record is printed iff no switch is on, or only
`wantExcludeTemporary` is on, or one of the six clauses holds: IPv4 wanted and family
IPv4, IPv6 wanted and family IPv6, link-local wanted and the address starts with `fe80`,
temporary-only wanted and the address is in the table, ULA wanted and the address starts
with `fd`, GUA wanted and the first character is `2` or `3`.  With only ULA wanted
`fd00::1` is printed; with only GUA wanted `fe80::1` is not. -/
theorem printed_iff_clauses :
    (∀ (c : CriteriaSet) (family : Family) (host : List Char) (tmps : List (List Char)),
      ¬ (c.wantExcludeTemporary = true ∧ host ∈ tmps) →
      (printed (flagWord c) family host tmps = true ↔
        (noCriterion c = true ∨ onlyExcludeTemporary c = true ∨
          (c.wantIPv4 = true ∧ family = Family.inet) ∨
          (c.wantIPv6 = true ∧ family = Family.inet6) ∨
          (c.wantLinkLocal = true ∧ host.take 4 = "fe80".toList) ∨
          (c.wantTemporaryOnly = true ∧ host ∈ tmps) ∨
          (c.wantULA = true ∧ host.take 2 = "fd".toList) ∨
          (c.wantGUA = true ∧ (host.head? = some '2' ∨ host.head? = some '3'))))) ∧
      (∀ (family : Family) (tmps : List (List Char)),
        printed (flagWord ⟨false, false, false, false, true, false, false⟩) family
          "fd00::1".toList tmps = true) ∧
      (∀ (family : Family) (tmps : List (List Char)),
        printed (flagWord ⟨false, false, true, false, false, false, false⟩) family
          "fe80::1".toList tmps = false) := by
  refine ⟨?_, ?_, ?_⟩
  · intro c family host tmps hx
    obtain ⟨t0, tN, t4, t6, tg, tl, tu, tt, tT⟩ := flagWord_tests c
    have hx2 : ¬ (flagWord c &&& NTMP ≠ 0 ∧ containsAddr host tmps = true) := by
      rw [tT, containsAddr_iff]
      exact hx
    have e1 : startsWith host ['f', 'e', '8', '0'] = true ↔ host.take 4 = "fe80".toList := by
      simp [startsWith]
    have e2 : startsWith host ['f', 'd'] = true ↔ host.take 2 = "fd".toList := by
      simp [startsWith]
    unfold printed
    rw [if_neg hx2, decide_eq_true_eq, t0, tN, t4, t6, tg, tl, tu, tt, containsAddr_iff,
      e1, e2]
    exact or_repeated _ _ _ _ _ _ _ _
  · intro family tmps
    have hw : flagWord ⟨false, false, false, false, true, false, false⟩ = 16 := by decide
    rw [hw]
    unfold printed
    have h1 : ¬ (16 &&& NTMP ≠ 0 ∧ containsAddr "fd00::1".toList tmps = true) := by
      intro h; exact h.1 (by decide)
    rw [if_neg h1, decide_eq_true_eq]
    exact Or.inr (Or.inr (Or.inr (Or.inr (Or.inr (Or.inr (Or.inl
      ⟨by decide, by decide⟩))))))
  · intro family tmps
    have hw : flagWord ⟨false, false, true, false, false, false, false⟩ = 4 := by decide
    rw [hw]
    unfold printed
    have h1 : ¬ (4 &&& NTMP ≠ 0 ∧ containsAddr "fe80::1".toList tmps = true) := by
      intro h; exact h.1 (by decide)
    rw [if_neg h1, decide_eq_false_iff_not]
    rintro (h | h | h | h | h | h | h | h | h)
    · exact absurd h (by decide)
    · exact absurd h (by decide)
    · exact absurd h.1 (by decide)
    · exact absurd h.1 (by decide)
    · exact absurd h.1 (by decide)
    · exact absurd h.1 (by decide)
    · exact absurd h.1 (by decide)
    · exact absurd h.1 (by decide)
    · rcases h.2 with h2 | h2 <;> exact absurd h2 (by decide)

/-- Witness of C11: IPv6 and exclude-temporary wanted, an IPv6 address that is not in the
table. -/
theorem printed_iff_clauses_witness :
    ¬ ((⟨false, true, false, false, false, false, true⟩ : CriteriaSet).wantExcludeTemporary
          = true ∧ "2001:db8::1".toList ∈ ["2001:db8::2".toList]) ∧
      (printed (flagWord ⟨false, true, false, false, false, false, true⟩) Family.inet6
          "2001:db8::1".toList ["2001:db8::2".toList] = true ↔
        (noCriterion ⟨false, true, false, false, false, false, true⟩ = true ∨
          onlyExcludeTemporary ⟨false, true, false, false, false, false, true⟩ = true ∨
          ((⟨false, true, false, false, false, false, true⟩ : CriteriaSet).wantIPv4 = true ∧
            Family.inet6 = Family.inet) ∨
          ((⟨false, true, false, false, false, false, true⟩ : CriteriaSet).wantIPv6 = true ∧
            Family.inet6 = Family.inet6) ∨
          ((⟨false, true, false, false, false, false, true⟩ : CriteriaSet).wantLinkLocal = true ∧
            "2001:db8::1".toList.take 4 = "fe80".toList) ∨
          ((⟨false, true, false, false, false, false, true⟩ : CriteriaSet).wantTemporaryOnly
              = true ∧ "2001:db8::1".toList ∈ ["2001:db8::2".toList]) ∨
          ((⟨false, true, false, false, false, false, true⟩ : CriteriaSet).wantULA = true ∧
            "2001:db8::1".toList.take 2 = "fd".toList) ∨
          ((⟨false, true, false, false, false, false, true⟩ : CriteriaSet).wantGUA = true ∧
            ("2001:db8::1".toList.head? = some '2' ∨
              "2001:db8::1".toList.head? = some '3')))) :=
  ⟨by decide,
    printed_iff_clauses.1 ⟨false, true, false, false, false, false, true⟩ Family.inet6
      "2001:db8::1".toList ["2001:db8::2".toList] (by decide)⟩

/-- C14 (defect of the code): the comment at line 242 says that `-6` equals `-gul`, but
the record of the IPv4 address `203.0.113.5` is not printed under `-6` and is printed
under `-gul` (the GUA clause does not test the family), and the IPv6 address `fc00::1`
is printed under `-6` and not under `-gul`. -/
theorem printed_six_differs_from_gul :
    printed IPV6 Family.inet "203.0.113.5".toList [] = false ∧
      printed (GUA6 ||| ULA6 ||| LLv6) Family.inet "203.0.113.5".toList [] = true ∧
      printed IPV6 Family.inet6 "fc00::1".toList [] = true ∧
      printed (GUA6 ||| ULA6 ||| LLv6) Family.inet6 "fc00::1".toList [] = false := by
  decide

/-- C17 (defect of the code): with `GUA6` as the only bit, the record of family IPv4 with
the address `203.0.113.5` is printed, and so is the IPv6 address `2::1`, which is not in
`2000::/3`: the clause looks at the first character only. -/
theorem printed_gua_ipv4 :
    printed GUA6 Family.inet "203.0.113.5".toList [] = true ∧
      printed GUA6 Family.inet6 "2::1".toList [] = true := by
  decide

/-- C20: with exactly `TMP6` and `NTMP` set no record is printed, whatever its family,
its address and the table are. -/
theorem printed_temporary_and_not (family : Family) (host : List Char)
    (tmps : List (List Char)) : printed (TMP6 ||| NTMP) family host tmps = false := by
  have hw : TMP6 ||| NTMP = 96 := by decide
  rw [hw]
  unfold printed
  by_cases hc : containsAddr host tmps = true
  · have : 96 &&& NTMP ≠ 0 ∧ containsAddr host tmps = true := ⟨by decide, hc⟩
    rw [if_pos this]
  · have : ¬ (96 &&& NTMP ≠ 0 ∧ containsAddr host tmps = true) := fun h => hc h.2
    rw [if_neg this, decide_eq_false_iff_not]
    rintro (h | h | h | h | h | h | h | h | h)
    · exact absurd h (by decide)
    · exact absurd h (by decide)
    · exact absurd h.1 (by decide)
    · exact absurd h.1 (by decide)
    · exact absurd h.1 (by decide)
    · exact hc h.2
    · exact absurd h.1 (by decide)
    · exact absurd h.1 (by decide)
    · exact absurd h.1 (by decide)

/-! ## Claims on `print_filtered` -/

theorem strncmpEq_lo (name : List Char) (h : NUL ∉ name) :
    strncmpEq name ['l', 'o'] 3 = true ↔ name = ['l', 'o'] := by
  unfold strncmpEq
  simp only [decide_eq_true_eq]
  constructor
  · intro he
    match name, h with
    | [], _ => simp at he
    | [a], _ => simp at he
    | [a, b], _ =>
      simp at he
      rw [he.1, he.2]
    | a :: b :: c :: rest, h =>
      simp at he
      have : c ≠ NUL := fun hc => h (by simp [hc])
      exact absurd he.2.2 this
  · rintro rfl
    rfl

theorem lazyTable_none (file : Option (List (List Char))) (flags : Nat)
    (h1 : flags &&& TMP6 = 0) (h2 : flags &&& NTMP = 0) : lazyTable file flags = none := by
  simp [lazyTable, h1, h2]

theorem printed_table_irrelevant (flags : Nat) (family : Family) (host : List Char)
    (t1 t2 : List (List Char)) (h1 : flags &&& TMP6 = 0) (h2 : flags &&& NTMP = 0) :
    printed flags family host t1 = printed flags family host t2 := by
  simp [printed, h1, h2]

theorem printLoop_table_irrelevant (options : opts) (t1 t2 : List (List Char))
    (h1 : options.flags &&& TMP6 = 0) (h2 : options.flags &&& NTMP = 0) (ifa : List ifaddrs) :
    printLoop options t1 ifa = printLoop options t2 ifa := by
  induction ifa with
  | nil => rfl
  | cons r rest ih =>
    simp only [printLoop, ih]
    split
    · rfl
    · split
      · rfl
      · split
        · rfl
        · split
          · rfl
          · rw [printed_table_irrelevant options.flags _ _ t1 t2 h1 h2]

theorem printLoop_default (ifa : List ifaddrs)
    (hname : ∀ r ∈ ifa, NUL ∉ r.ifa_name)
    (hinfo : ∀ r ∈ ifa, ∀ sa, r.ifa_addr = some sa → r.ifa_flags &&& IFF_LOOPBACK = 0 →
      r.ifa_name ≠ ['l', 'o'] → sa.sa_family ≠ none →
      ∀ msg, sa.nameinfo ≠ NameInfo.failed msg) :
    printLoop ⟨0, []⟩ [] ifa = (ifa.filterMap eligibleHost, Outcome.ok ()) := by
  induction ifa with
  | nil => rfl
  | cons r rest ih =>
    have ih2 := ih (fun x hx => hname x (by simp [hx])) (fun x hx => hinfo x (by simp [hx]))
    have hlo := strncmpEq_lo r.ifa_name (hname r (by simp))
    have hp : ∀ (family : Family) (h : List Char), printed 0 family h [] = true := by
      intro family h
      simp [printed]
    rw [printLoop, ih2, List.filterMap_cons]
    cases ha : r.ifa_addr with
    | none =>
      have hpass : passedOver r ⟨0, []⟩ = true := by simp [passedOver, ha]
      have he : eligibleHost r = none := by simp [eligibleHost, ha]
      simp only [hpass, he, if_true]
    | some sa =>
      have hi := hinfo r (by simp) sa ha
      by_cases hl : r.ifa_flags &&& IFF_LOOPBACK ≠ 0
      · have hpass : passedOver r ⟨0, []⟩ = true := by simp [passedOver, hl]
        have he : eligibleHost r = none := by simp [eligibleHost, ha, hl]
        simp only [hpass, he, if_true]
      · by_cases hn : r.ifa_name = ['l', 'o']
        · have hpass : passedOver r ⟨0, []⟩ = true := by simp [passedOver, hlo.2 hn]
          have he : eligibleHost r = none := by simp [eligibleHost, ha, hn]
          simp only [hpass, he, if_true]
        · have hs : strncmpEq r.ifa_name ['l', 'o'] 3 = false := by
            cases hq : strncmpEq r.ifa_name ['l', 'o'] 3
            · rfl
            · exact absurd (hlo.1 hq) hn
          have hl2 : r.ifa_flags &&& IFF_LOOPBACK = 0 := by
            by_contra h; exact hl h
          have hpass : passedOver r ⟨0, []⟩ = false := by
            simp [passedOver, ha, hl2, hs]
          simp only [hpass, Bool.false_eq_true, if_false]
          cases hf : sa.sa_family with
          | none =>
            have he : eligibleHost r = none := by simp [eligibleHost, ha, hf]
            simp only [he]
          | some family =>
            cases hni : sa.nameinfo with
            | failed msg => exact absurd hni (hi hl2 hn (by simp [hf]) msg)
            | host h =>
              have he : eligibleHost r = some h := by
                simp [eligibleHost, ha, hl2, hn, hf, hni]
              simp only [he, hp, if_true]

/-- C12: with no option bit and no interface name, for every list of `getifaddrs` whose
names are C strings and in which `getnameinfo` succeeds on every node it is called for,
`print_filtered` prints
exactly the addresses of the nodes that have an address, are not flagged loopback, are
not named `lo` and have family IPv4 or IPv6, in the order of the list, and returns; the
kernel table plays no part. -/
theorem print_filtered_default (file : Option (List (List Char))) (ifa : List ifaddrs)
    (hname : ∀ r ∈ ifa, NUL ∉ r.ifa_name)
    (hinfo : ∀ r ∈ ifa, ∀ sa, r.ifa_addr = some sa → r.ifa_flags &&& IFF_LOOPBACK = 0 →
      r.ifa_name ≠ ['l', 'o'] → sa.sa_family ≠ none →
      ∀ msg, sa.nameinfo ≠ NameInfo.failed msg) :
    print_filtered file ifa ⟨0, []⟩ = (ifa.filterMap eligibleHost, Outcome.ok ()) := by
  unfold print_filtered
  rw [lazyTable_none file 0 (by decide) (by decide)]
  exact printLoop_default ifa hname hinfo

/-- Witness of C12: an IPv4 node, the loopback node and an IPv6 node give the two
addresses in that order. -/
theorem print_filtered_default_witness :
    print_filtered none
        [⟨"eth0".toList, 0, some ⟨some Family.inet, NameInfo.host "192.0.2.1".toList⟩⟩,
          ⟨"lo".toList, 8, some ⟨some Family.inet, NameInfo.host "127.0.0.1".toList⟩⟩,
          ⟨"eth0".toList, 0, some ⟨some Family.inet6, NameInfo.host "2001:db8::1".toList⟩⟩]
        ⟨0, []⟩
      = (["192.0.2.1".toList, "2001:db8::1".toList], Outcome.ok ()) :=
  (print_filtered_default none
    [⟨"eth0".toList, 0, some ⟨some Family.inet, NameInfo.host "192.0.2.1".toList⟩⟩,
      ⟨"lo".toList, 8, some ⟨some Family.inet, NameInfo.host "127.0.0.1".toList⟩⟩,
      ⟨"eth0".toList, 0, some ⟨some Family.inet6, NameInfo.host "2001:db8::1".toList⟩⟩]
    (by decide)
    (by
      intro r hr sa hsa _ _ _ msg
      simp only [List.mem_cons, List.mem_singleton, List.not_mem_nil, or_false] at hr
      rcases hr with rfl | rfl | rfl <;> cases hsa <;> simp)).trans (by decide)

/-- C13: the table is built (`parse_proc` is called) iff `TMP6` or `NTMP` is set.  When
neither is set the result of `print_filtered` is the same for every content of the
kernel table, the table that cannot be opened included, and the loop gives the same
result for every table.  When one of them is set and the table cannot be opened, the run
ends with `exit(EXIT_FAILURE)` before anything is printed. -/
theorem print_filtered_lazy_table :
    (∀ (file : Option (List (List Char))) (flags : Nat),
      (lazyTable file flags).isSome = true ↔ (flags &&& TMP6 ≠ 0 ∨ flags &&& NTMP ≠ 0)) ∧
      (∀ (file1 file2 : Option (List (List Char))) (ifa : List ifaddrs) (options : opts),
        options.flags &&& TMP6 = 0 → options.flags &&& NTMP = 0 →
        print_filtered file1 ifa options = print_filtered file2 ifa options) ∧
      (∀ (t1 t2 : List (List Char)) (ifa : List ifaddrs) (options : opts),
        options.flags &&& TMP6 = 0 → options.flags &&& NTMP = 0 →
        printLoop options t1 ifa = printLoop options t2 ifa) ∧
      (∀ (ifa : List ifaddrs) (options : opts),
        (options.flags &&& TMP6 ≠ 0 ∨ options.flags &&& NTMP ≠ 0) →
        print_filtered none ifa options = ([], Outcome.exitFailure)) := by
  refine ⟨?_, ?_, ?_, ?_⟩
  · intro file flags
    unfold lazyTable
    by_cases h : flags &&& TMP6 ≠ 0 ∨ flags &&& NTMP ≠ 0
    · simp [h]
    · rw [if_neg h]
      simp [h]
  · intro file1 file2 ifa options h1 h2
    unfold print_filtered
    rw [lazyTable_none file1 _ h1 h2, lazyTable_none file2 _ h1 h2]
  · intro t1 t2 ifa options h1 h2
    exact printLoop_table_irrelevant options t1 t2 h1 h2 ifa
  · intro ifa options h
    unfold print_filtered lazyTable
    rw [if_pos h]
    rfl

/-- Witness of C13: with `-4` the result without a kernel table is the result with the
empty one; with `-t` and no kernel table the run exits. -/
theorem print_filtered_lazy_table_witness :
    print_filtered none
        [⟨"eth0".toList, 0, some ⟨some Family.inet, NameInfo.host "192.0.2.1".toList⟩⟩]
        ⟨IPV4, []⟩
      = print_filtered (some [])
        [⟨"eth0".toList, 0, some ⟨some Family.inet, NameInfo.host "192.0.2.1".toList⟩⟩]
        ⟨IPV4, []⟩ ∧
      print_filtered none
        [⟨"eth0".toList, 0, some ⟨some Family.inet, NameInfo.host "192.0.2.1".toList⟩⟩]
        ⟨TMP6, []⟩ = ([], Outcome.exitFailure) :=
  ⟨print_filtered_lazy_table.2.1 none (some []) _ ⟨IPV4, []⟩ (by decide) (by decide),
    print_filtered_lazy_table.2.2.2 _ ⟨TMP6, []⟩ (Or.inl (by decide))⟩

/-- C18 (defect of the code): in the line `fe80...01 02 40 20` the fourth whitespace
character is the final newline, at index 41 of 42 characters; `parse_proc` then reads
`lineptr[43]`, which lies after the line and after its terminator, so the call has no
defined result. -/
theorem parse_proc_lookup_outside :
    "fe800000000000000000000000000001 02 40 20\n".toList.length = 42 ∧
      fourthSpace "fe800000000000000000000000000001 02 40 20\n".toList = some 41 ∧
      lineAt "fe800000000000000000000000000001 02 40 20\n".toList (41 + 2) = none ∧
      parse_proc (some ["fe800000000000000000000000000001 02 40 20\n".toList])
        = Outcome.undefined := by
  decide

/-! ## Further claims on `reduce_v6` -/

set_option maxRecDepth 100000 in
theorem loneOk_boolLists : (boolLists 8).all loneOk = true := by decide

theorem lone_run (fs : List Bool) (h8 : fs.length = 8) (k : Nat) (hk : fs[k]? = some true)
    (hone : fs.count true = 1) : firstLongest fs = k ∧ longestRun fs = 1 := by
  have h1 := mem_boolLists fs
  rw [h8] at h1
  have hok := List.all_eq_true.1 loneOk_boolLists fs h1
  have hk8 : k < fs.length := by
    by_contra hge
    rw [List.getElem?_eq_none (by omega)] at hk
    cases hk
  simp only [loneOk, Bool.or_eq_true, Bool.not_eq_true', beq_eq_false_iff_ne, ne_eq,
    List.all_eq_true, List.mem_range, Bool.and_eq_true, beq_iff_eq] at hok
  rcases hok with h | h
  · exact absurd hone h
  · rcases h k hk8 with h2 | h2
    · exact absurd hk h2
    · exact h2

/-- C16: for every address of 32 hexadecimal digits that has exactly one zero group, at
any of the eight positions `k`, `reduce_v6` replaces that single group with `::`; the
seven other groups are stripped of their leading zeros and kept in order. -/
theorem reduce_v6_lone_zero_group (d : List Char) (hlen : d.length = 32)
    (hhex : ∀ c ∈ d, isHexDigit c = true) (k : Nat)
    (hk : (zeroFlags d)[k]? = some true) (hone : (zeroFlags d).count true = 1) :
    reduce_v6 d = some (elide (stripped d) k 1) := by
  have hl := length_zeroFlags d hlen
  have hs := length_stripped d hlen
  obtain ⟨hi, hL⟩ := lone_run (zeroFlags d) hl k hk hone
  have hk8 : k < 8 := by
    by_contra hge
    rw [List.getElem?_eq_none (by omega)] at hk
    cases hk
  rw [reduce_v6_of_hex d hlen hhex, hi, hL]
  congr 1
  unfold codeText
  by_cases hlt : k + 1 < 8
  · simp [hs, hlt]
  · have hk7 : k = 7 := by omega
    subst hk7
    have hd : (stripped d).drop (7 + 1) = [] := by
      apply List.drop_of_length_le; omega
    simp [hs, elide, hd, colonZeros, joinColon]

/-- Witness of C16: the zero group is the third group; and, for the eighth position,
the address `1:2:3:4:5:6:7:0`. -/
theorem reduce_v6_lone_zero_group_witness :
    ((zeroFlags "20010db8000000010002000300040005".toList)[2]? = some true ∧
      (zeroFlags "20010db8000000010002000300040005".toList).count true = 1) ∧
      reduce_v6 "20010db8000000010002000300040005".toList = some "2001:db8::1:2:3:4:5".toList ∧
      reduce_v6 "00010002000300040005000600070000".toList = some "1:2:3:4:5:6:7::".toList :=
  ⟨⟨by decide, by decide⟩,
    (reduce_v6_lone_zero_group "20010db8000000010002000300040005".toList (by decide)
      (by decide) 2 (by decide) (by decide)).trans (by decide),
    (reduce_v6_lone_zero_group "00010002000300040005000600070000".toList (by decide)
      (by decide) 7 (by decide) (by decide)).trans (by decide)⟩

theorem mem_joinColon (ss : List (List Char)) (x : Char) (h : x ∈ joinColon ss) :
    x = ':' ∨ ∃ s ∈ ss, x ∈ s := by
  induction ss with
  | nil => simp [joinColon] at h
  | cons s ss ih =>
    cases ss with
    | nil => exact Or.inr ⟨s, by simp, by simpa [joinColon] using h⟩
    | cons t ss =>
      rw [joinColon_cons _ _ (by simp)] at h
      simp only [List.mem_append, List.mem_cons] at h
      rcases h with h | h | h
      · exact Or.inr ⟨s, by simp, h⟩
      · exact Or.inl h
      · rcases ih h with h2 | ⟨u, hu, hx⟩
        · exact Or.inl h2
        · exact Or.inr ⟨u, List.mem_cons_of_mem _ hu, hx⟩

theorem mem_colonZeros (n : Nat) (x : Char) (h : x ∈ colonZeros n) : x = ':' ∨ x = '0' := by
  induction n with
  | zero => simp [colonZeros] at h
  | succ n ih =>
    simp only [colonZeros, List.mem_cons] at h
    rcases h with h | h | h
    · exact Or.inl h
    · exact Or.inr h
    · exact ih h

theorem mem_codeText (ss : List (List Char)) (i n : Nat) (x : Char)
    (h : x ∈ codeText ss i n) : x = ':' ∨ (x = '0' ∧ n ≠ 0) ∨ ∃ s ∈ ss, x ∈ s := by
  unfold codeText at h
  by_cases hn : n = 0
  · rw [if_pos hn] at h
    rcases mem_joinColon ss x h with h1 | h1
    · exact Or.inl h1
    · exact Or.inr (Or.inr h1)
  · rw [if_neg hn] at h
    split at h
    · simp only [elide, List.mem_append, List.mem_cons] at h
      rcases h with h | h | h | h
      · rcases mem_joinColon _ x h with h1 | ⟨s, hs, hx⟩
        · exact Or.inl h1
        · exact Or.inr (Or.inr ⟨s, List.mem_of_mem_take hs, hx⟩)
      · exact Or.inl h
      · exact Or.inl h
      · rcases mem_joinColon _ x h with h1 | ⟨s, hs, hx⟩
        · exact Or.inl h1
        · exact Or.inr (Or.inr ⟨s, List.mem_of_mem_drop hs, hx⟩)
    · split at h
      · simp only [List.mem_cons] at h
        rcases h with h | h | h
        · exact Or.inl h
        · exact Or.inl h
        · rcases mem_colonZeros _ x (List.mem_of_mem_drop h) with h1 | h1
          · exact Or.inl h1
          · exact Or.inr (Or.inl ⟨h1, hn⟩)
      · simp only [List.mem_append, List.mem_cons] at h
        rcases h with h | h | h | h
        · rcases mem_joinColon _ x h with h1 | ⟨s, hs, hx⟩
          · exact Or.inl h1
          · exact Or.inr (Or.inr ⟨s, List.mem_of_mem_take hs, hx⟩)
        · exact Or.inl h
        · exact Or.inl h
        · rcases mem_colonZeros _ x h with h1 | h1
          · exact Or.inl h1
          · exact Or.inr (Or.inl ⟨h1, hn⟩)

theorem stripZeros_subset (q : List Char) (hq : q ≠ []) : ∀ x ∈ stripZeros q, x ∈ q := by
  intro x hx
  unfold stripZeros at hx
  split at hx
  · rename_i hnil
    rw [List.dropWhile_eq_nil_iff] at hnil
    obtain ⟨y, q2, rfl⟩ := List.exists_cons_of_ne_nil hq
    have hy := hnil y (by simp)
    simp only [decide_eq_true_eq] at hy
    simp only [List.mem_singleton] at hx
    rw [hx, ← hy]
    simp
  · exact (List.dropWhile_sublist _).subset hx

theorem stripped_subset (d : List Char) : ∀ s ∈ stripped d, ∀ x ∈ s, x ∈ d := by
  intro s hs x hx
  obtain ⟨q, hq, rfl⟩ := List.mem_map.1 hs
  have h4 := quartets_length_four d q hq
  have hne : q ≠ [] := by
    intro h; rw [h] at h4; simp at h4
  exact quartets_mem d q hq x (stripZeros_subset q hne x hx)

theorem zero_mem_of_run (d : List Char) (hlen : d.length = 32)
    (hpos : 0 < longestRun (zeroFlags d)) : '0' ∈ d := by
  have h := zero_run_quartets d hlen hpos
  obtain ⟨n, hn⟩ : ∃ n, longestRun (zeroFlags d) = n + 1 := ⟨_, (Nat.succ_pred_eq_of_pos hpos).symm⟩
  rw [hn] at h
  have hm : ['0', '0', '0', '0'] ∈ List.replicate (n + 1) ['0', '0', '0', '0'] := by
    simp [List.replicate_succ]
  rw [← h] at hm
  exact quartets_mem d _ (List.mem_of_mem_drop (List.mem_of_mem_take hm)) '0' (by simp)

theorem length_joinColon_le (ss : List (List Char)) : (joinColon ss).length ≤ offs ss := by
  cases ss with
  | nil => simp [joinColon]
  | cons s ss =>
    have := length_joinColon (s :: ss) (by simp)
    omega

theorem run_within (d : List Char) (hlen : d.length = 32)
    (hpos : 0 < longestRun (zeroFlags d)) :
    firstLongest (zeroFlags d) + longestRun (zeroFlags d) ≤ 8 := by
  have h := congrArg List.length (zero_run_flags d hlen hpos)
  have hl := length_zeroFlags d hlen
  simp only [List.length_take, List.length_drop, List.length_replicate, hl] at h
  omega

theorem offs_take_stripped (d : List Char) (i : Nat) :
    offs ((stripped d).take i) ≤ 5 * i := by
  have h := offs_strip_le ((quartets d).take i)
    (fun q hq => quartets_length_four d q (List.mem_of_mem_take hq))
  rw [List.map_take] at h
  have hle : ((quartets d).take i).length ≤ i := by
    simp only [List.length_take]; omega
  unfold stripped
  omega

theorem offs_drop_stripped (d : List Char) (hlen : d.length = 32) (j : Nat) :
    offs ((stripped d).drop j) ≤ 5 * (8 - j) := by
  have h := offs_strip_le ((quartets d).drop j)
    (fun q hq => quartets_length_four d q (List.mem_of_mem_drop hq))
  rw [List.map_drop] at h
  have hle : ((quartets d).drop j).length = 8 - j := by
    simp only [List.length_drop, quartets_length d hlen]
  unfold stripped
  rw [hle] at h
  exact h

theorem length_codeText (d : List Char) (hlen : d.length = 32) :
    (codeText (stripped d) (firstLongest (zeroFlags d)) (longestRun (zeroFlags d))).length
      ≤ 39 := by
  have hs := length_stripped d hlen
  by_cases hL : longestRun (zeroFlags d) = 0
  · have hne : stripped d ≠ [] := by
      intro h; rw [h] at hs; simp at hs
    have h1 := length_joinColon _ hne
    have h2 := offs_drop_stripped d hlen 0
    simp only [List.drop_zero] at h2
    simp only [codeText, hL, if_true]
    omega
  · have hpos : 0 < longestRun (zeroFlags d) := Nat.pos_of_ne_zero hL
    have hin := run_within d hlen hpos
    generalize firstLongest (zeroFlags d) = i at hin ⊢
    generalize longestRun (zeroFlags d) = L at hin hpos hL ⊢
    have ht := offs_take_stripped d i
    have htl := length_joinColon_le ((stripped d).take i)
    simp only [codeText, hL, if_false, hs]
    by_cases hlt : i + L < 8
    · have hne : (stripped d).drop (i + L) ≠ [] := by
        intro h
        have := congrArg List.length h
        simp only [List.length_drop, List.length_nil, hs] at this
        omega
      have h1 := length_joinColon _ hne
      have h2 := offs_drop_stripped d hlen (i + L)
      rw [if_pos hlt]
      simp only [elide, List.length_append, List.length_cons]
      omega
    · by_cases hi0 : i = 0
      · have hz := length_colonZeros (L - 1)
        rw [if_neg hlt, if_pos hi0]
        simp only [List.length_cons, List.length_drop, hz]
        omega
      · have hz := length_colonZeros (L - 1)
        rw [if_neg hlt, if_neg hi0]
        simp only [List.length_append, List.length_cons, hz]
        omega

/-- C19: for every input of 32 characters (none of them the terminator) `reduce_v6`
returns a string of at most 39 characters, each a colon or a character of the input.
It returns at all, which, as `rd` and `wr` give no value outside the 64 bytes that
`calloc` returned, means that every index read or written in the result buffer, the
reads of the squash loop at `ende-1` and `ende` included, is below 64. -/
theorem reduce_v6_bounded :
    (∀ d : List Char, d.length = 32 → (∀ c ∈ d, c ≠ NUL) →
      ∃ out, reduce_v6 d = some out ∧ out.length ≤ 39 ∧ ∀ c ∈ out, c = ':' ∨ c ∈ d) ∧
      (calloc (ADDRSIZE * 2)).length = 64 ∧
      (∀ (buf : List Char) (i : Nat) (c : Char), rd buf i = some c → i < buf.length) ∧
      (∀ (buf b : List Char) (i : Nat) (c : Char), wr buf i c = some b →
        i < buf.length ∧ b.length = buf.length) := by
  refine ⟨?_, by simp [calloc, ADDRSIZE], ?_, ?_⟩
  · intro d hlen hnul
    refine ⟨_, reduce_v6_eq d hlen hnul, length_codeText d hlen, ?_⟩
    intro c hc
    rcases mem_codeText _ _ _ c hc with h | ⟨h0, hn⟩ | ⟨s, hs, hx⟩
    · exact Or.inl h
    · right
      rw [h0]
      exact zero_mem_of_run d hlen (Nat.pos_of_ne_zero hn)
    · exact Or.inr (stripped_subset d s hs c hx)
  · intro buf i c h
    unfold rd at h
    by_contra hge
    rw [List.getElem?_eq_none (by omega)] at h
    cases h
  · intro buf b i c h
    unfold wr at h
    by_cases hi : i < buf.length
    · rw [if_pos hi] at h
      cases h
      exact ⟨hi, by simp⟩
    · rw [if_neg hi] at h
      cases h

/-- Witness of C19: the link-local address `fe80::1`, 7 characters. -/
theorem reduce_v6_bounded_witness :
    ("fe800000000000000000000000000001".toList.length = 32 ∧
      ∀ c ∈ "fe800000000000000000000000000001".toList, c ≠ NUL) ∧
      ∃ out, reduce_v6 "fe800000000000000000000000000001".toList = some out ∧
        out.length ≤ 39 ∧
        ∀ c ∈ out, c = ':' ∨ c ∈ "fe800000000000000000000000000001".toList :=
  ⟨⟨by decide, by decide⟩,
    reduce_v6_bounded.1 "fe800000000000000000000000000001".toList (by decide) (by decide)⟩

end Showip
